import Mathlib

/-!
Seven-segment converter: a shallow embedding of `src/seven_seg_solution.hpp`.

* `seven_segConversion_solution` : the encoder of one `int32_t` into an
  11-byte buffer;
* `worker` : the per-thread loop over an index range;
* `seven_seg_solution` : the dispatcher that cuts `[0, size)` into chunks.

Conventions of the embedding.

* An `int32_t` is an `Int` in `[-2^31, 2^31)`; a `uint32_t` is a `Nat` below
  `2^32`. Arithmetic that can leave the range is reduced explicitly
  (`wrapInt32`, `% 2^32`), i.e. 32-bit arithmetic wraps around, and a
  conversion between the two types keeps the 32-bit pattern.
* A `char` buffer is a `List Nat` of bytes; the assignment `buf[i] = v` is
  `List.set`. The encoder is only meaningful on buffers of at least 11 bytes,
  which the theorems assume where it matters.
* `dst` is a list of buffers (distinct buffers do not alias), `src` a list of
  integers. An access outside an array is a fault, as is a division by zero:
  the functions that can fault return an `Except Fault`.
* The thread count `std::thread::hardware_concurrency()` is a parameter. The
  threads write disjoint buffers; their worker calls are executed one after
  another, in launch order unless an order is given.
-/

namespace SevenSeg

/-- A `char*` output buffer: its bytes. -/
abbrev Buf := List Nat

/-- The two ways a run can leave defined behaviour. -/
inductive Fault where
  | divisionByZero
  | outOfBounds
  deriving DecidableEq

/-- The value of an `int32_t` holding the two's-complement image of `v`. -/
def wrapInt32 (v : Int) : Int := (v + 2147483648) % 4294967296 - 2147483648

/-- The value of a `uint32_t` holding the image of `v`. -/
def toUInt32 (v : Int) : Nat := (v % 4294967296).toNat

/-- The value of a `char` slot holding the image of `v` (only `0` and `1` are ever stored this way). -/
def toByte (v : Int) : Nat := (v % 256).toNat

/-- Membership of the `int32_t` range. -/
def IsInt32 (x : Int) : Prop := -2147483648 ≤ x ∧ x ≤ 2147483647

instance (x : Int) : Decidable (IsInt32 x) := by
  unfold IsInt32; infer_instance

/-- The table `char segMap[10]` of the encoder. -/
def segMap : List Nat := [0x7E, 0x30, 0x6D, 0x79, 0x33, 0x5B, 0x5F, 0x70, 0x7F, 0x73]

/-- The call `std::fill(segArray, segArray + 11, 0x0)`: slots `0..10` are set to zero. -/
def fillZero (segArray : Buf) : Buf :=
  (List.range 11).foldl (fun a i => a.set i 0) segArray

/-- The loop
`for (position = 10; segNumber > 0; segNumber /= 10, --position)`
with body `segIndex = segNumber % 10; segArray[position] = segMap[segIndex];`,
entered with the given `position` (a `uint32_t`, so `--position` is taken
modulo `2^32`) and `segNumber` (an `int32_t`; `/` and `%` truncate). -/
def digitLoop (position : Nat) (segNumber : Int) (segArray : Buf) : Buf :=
  if _h : segNumber > 0 then
    let segIndex := toUInt32 (Int.tmod segNumber 10)
    digitLoop ((position + 4294967295) % 4294967296) (Int.tdiv segNumber 10)
      (segArray.set position (segMap.getD segIndex 0))
  else segArray
termination_by segNumber.toNat
decreasing_by
  have h1 : Int.tdiv segNumber 10 = segNumber / 10 := Int.tdiv_eq_ediv (by omega) (by omega)
  rw [h1]
  omega

/-- The accesses of the loop of `digitLoop`, one pair per iteration in
execution order: the index `position` written in `segArray` and the index
`segIndex` read in `segMap`. -/
def digitLoopTrace (position : Nat) (segNumber : Int) : List (Nat × Nat) :=
  if _h : segNumber > 0 then
    (position, toUInt32 (Int.tmod segNumber 10)) ::
      digitLoopTrace ((position + 4294967295) % 4294967296) (Int.tdiv segNumber 10)
  else []
termination_by segNumber.toNat
decreasing_by
  have h1 : Int.tdiv segNumber 10 = segNumber / 10 := Int.tdiv_eq_ediv (by omega) (by omega)
  rw [h1]
  omega

/-- The statement `mask = segNumber >> 31;` (an arithmetic shift). -/
def signMask (segNumber : Int) : Int := segNumber >>> (31 : Nat)

/-- The statement `segNumber = (segNumber ^ mask) - mask;` in `int32_t` arithmetic. -/
def magnitude (segNumber : Int) : Int :=
  wrapInt32 (Int.xor segNumber (signMask segNumber) - signMask segNumber)

/-- The function `seven_segConversion_solution(char *segArray, int32_t segNumber)`;
the result is the buffer after the call. -/
def seven_segConversion_solution (segArray : Buf) (segNumber : Int) : Buf :=
  let segArray := fillZero segArray
  let mask := signMask segNumber
  let segArray := segArray.set 0 (toByte (Int.land mask 1))
  let segNumber := magnitude segNumber
  digitLoop 10 segNumber segArray

/-- The loop `for (int i = start; i < end; ++i) seven_segConversion_solution(dst[i], src[i]);`
of `worker`, entered with the given `i`. Reading `dst[i]` or `src[i]` outside
the arrays is a fault. (`++i` cannot overflow: `i < end` and `end` is an `int`.) -/
def workerLoop (stop : Int) (src : List Int) (i : Int) (dst : List Buf) :
    Except Fault (List Buf) :=
  if _h : i < stop then
    if 0 ≤ i ∧ i.toNat < dst.length ∧ i.toNat < src.length then
      workerLoop stop src (i + 1)
        (dst.set i.toNat
          (seven_segConversion_solution (dst.getD i.toNat []) (src.getD i.toNat 0)))
    else .error .outOfBounds
  else .ok dst
termination_by (stop - i).toNat
decreasing_by omega

/-- The function `worker(int start, int end, char **dst, int32_t *src)`;
the result is the array of buffers after the call. -/
def worker (start stop : Int) (dst : List Buf) (src : List Int) : Except Fault (List Buf) :=
  workerLoop stop src start dst

/-- The statement `int start = index * chunks;`: the product is formed in
`uint32_t` and stored in an `int`. Here `index` is the `uint32_t` image of the
loop counter, which is what every use of it in the loop converts it to. -/
def chunkStart (chunks index : Nat) : Int :=
  wrapInt32 ((index * chunks % 4294967296 : Nat) : Int)

/-- The statement `int end = (index == totalThreads - 1) ? size : start + chunks;`:
both branches are `uint32_t` and the result is stored in an `int`. -/
def chunkEnd (totalThreads size chunks index : Nat) : Int :=
  wrapInt32
    ((if index = (totalThreads + 4294967295) % 4294967296 then size
      else (toUInt32 (chunkStart chunks index) + chunks) % 4294967296 : Nat) : Int)

/-- The worker calls that the threads with the given indices make, executed
one after another in the listed order. -/
def runThreads (totalThreads size chunks : Nat) (src : List Int) (order : List Nat)
    (dst : List Buf) : Except Fault (List Buf) :=
  order.foldlM
    (fun d index => worker (chunkStart chunks index) (chunkEnd totalThreads size chunks index) d src)
    dst

/-- The function `seven_seg_solution(char **dst, int32_t *src, uint32_t size)`, with the
value of `std::thread::hardware_concurrency()` as the parameter `totalThreads`;
the result is the array of buffers once every thread is joined. The threads
`0, 1, ..., totalThreads - 1` are run in launch order. `size / totalThreads`
with `totalThreads = 0` is a fault. -/
def seven_seg_solution (totalThreads : Nat) (dst : List Buf) (src : List Int) (size : Nat) :
    Except Fault (List Buf) :=
  if totalThreads = 0 then .error .divisionByZero
  else
    let chunks := size / totalThreads
    runThreads totalThreads size chunks src (List.range totalThreads) dst

/-- The decoder of the round-trip property, following the wording of the
specification: take slots `1..10`, strip the leading zero slots, and map each
remaining code back to its digit through the inverse of `segMap`. -/
def decodeDigits (segArray : Buf) : List Nat :=
  (((segArray.drop 1).take 10).dropWhile (fun c => c == 0)).map (fun c => segMap.indexOf c)

/-- The array that results from encoding `src[j]` into `dst[j]` for every
`lo ≤ j < hi` and leaving the other buffers alone. -/
def encodeRange (lo hi : Nat) (src : List Int) (dst : List Buf) : List Buf :=
  dst.mapIdx (fun j b =>
    if lo ≤ j ∧ j < hi then seven_segConversion_solution b (src.getD j 0) else b)

end SevenSeg

open SevenSeg

/-! ## Unfolding the loops -/

theorem digitLoop_pos (position : Nat) (segNumber : Int) (segArray : Buf) (h : segNumber > 0) :
    digitLoop position segNumber segArray =
      digitLoop ((position + 4294967295) % 4294967296) (segNumber / 10)
        (segArray.set position (segMap.getD (segNumber % 10).toNat 0)) := by
  have h1 : Int.tdiv segNumber 10 = segNumber / 10 := Int.tdiv_eq_ediv (by omega) (by omega)
  have h2 : Int.tmod segNumber 10 = segNumber % 10 := Int.tmod_eq_emod (by omega) (by omega)
  have h3 : toUInt32 (segNumber % 10) = (segNumber % 10).toNat := by
    unfold toUInt32
    congr 1
    omega
  rw [digitLoop, dif_pos h, h1, h2, h3]

theorem digitLoop_nonpos (position : Nat) (segNumber : Int) (segArray : Buf)
    (h : segNumber ≤ 0) : digitLoop position segNumber segArray = segArray := by
  rw [digitLoop, dif_neg (by omega)]

theorem workerLoop_done (stop : Int) (src : List Int) (i : Int) (dst : List Buf)
    (h : stop ≤ i) : workerLoop stop src i dst = .ok dst := by
  rw [workerLoop, dif_neg (by omega)]

theorem workerLoop_step (stop : Int) (src : List Int) (i : Int) (dst : List Buf)
    (h : i < stop) (h0 : 0 ≤ i) (hd : i.toNat < dst.length) (hs : i.toNat < src.length) :
    workerLoop stop src i dst =
      workerLoop stop src (i + 1)
        (dst.set i.toNat
          (seven_segConversion_solution (dst.getD i.toNat []) (src.getD i.toNat 0))) := by
  rw [workerLoop, dif_pos h, if_pos ⟨h0, hd, hs⟩]

theorem workerLoop_fault (stop : Int) (src : List Int) (i : Int) (dst : List Buf)
    (h : i < stop) (hb : ¬ (0 ≤ i ∧ i.toNat < dst.length ∧ i.toNat < src.length)) :
    workerLoop stop src i dst = .error .outOfBounds := by
  rw [workerLoop, dif_pos h, if_neg hb]

/-- Induction along the iterations of the digit loop. -/
theorem digitLoop_induct (P : Nat → Int → Buf → Prop)
    (base : ∀ p n a, n ≤ 0 → P p n a)
    (step : ∀ p n a, n > 0 →
      P ((p + 4294967295) % 4294967296) (n / 10) (a.set p (segMap.getD (n % 10).toNat 0)) →
      P p n a) :
    ∀ p n a, P p n a := by
  have key : ∀ (m : Nat) p n a, Int.toNat n ≤ m → P p n a := by
    intro m
    induction m with
    | zero =>
      intro p n a h
      exact base p n a (by omega)
    | succ m ih =>
      intro p n a h
      by_cases hn : n ≤ 0
      · exact base p n a hn
      · exact step p n a (by omega) (ih _ _ _ (by omega))
  intro p n a
  exact key n.toNat p n a (Nat.le_refl _)

/-! ## The encoder -/

theorem digitLoop_length (p : Nat) (n : Int) (a : Buf) :
    (digitLoop p n a).length = a.length := by
  induction p, n, a using digitLoop_induct with
  | base p n a h => rw [digitLoop_nonpos p n a h]
  | step p n a h ih => rw [digitLoop_pos p n a h, ih, List.length_set]

/-- The first `k` bytes after the loop are the loop run on the first `k` bytes. -/
theorem digitLoop_take (k p : Nat) (n : Int) (a : Buf) :
    (digitLoop p n a).take k = digitLoop p n (a.take k) := by
  induction p, n, a using digitLoop_induct with
  | base p n a h => rw [digitLoop_nonpos p n a h, digitLoop_nonpos p n _ h]
  | step p n a h ih => rw [digitLoop_pos p n a h, digitLoop_pos p n _ h, ih, List.set_take]

/-- A loop entered at `position = p` with a number below `10^p` writes only
slots `1..p`: slot `0` and the slots after `p` keep their value. -/
theorem digitLoop_getElem?_outside (j : Nat) :
    ∀ (p : Nat) (n : Int) (a : Buf), p < 4294967296 → n < 10 ^ p → (j = 0 ∨ p < j) →
      (digitLoop p n a)[j]? = a[j]? := by
  intro p
  induction p with
  | zero =>
    intro n a _ hn _
    rw [digitLoop_nonpos 0 n a (by simpa using Int.le_of_lt_add_one (by simpa using hn))]
  | succ q ih =>
    intro n a hp hn hj
    by_cases h : n ≤ 0
    · rw [digitLoop_nonpos _ n a h]
    · have hq : (q + 1 + 4294967295) % 4294967296 = q := by omega
      have hpow : (10 : Int) ^ (q + 1) = 10 * 10 ^ q := by ring
      rw [hpow] at hn
      have hn2 : n / 10 < 10 ^ q := by
        generalize (10 : Int) ^ q = t at hn
        omega
      rw [digitLoop_pos _ n a (by omega), hq, ih _ _ (by omega) hn2 (by omega),
        List.getElem?_set_ne (by omega)]

theorem getElem?_foldl_set (v : Nat) (j : Nat) :
    ∀ (is : List Nat) (a : Buf),
      (is.foldl (fun a i => a.set i v) a)[j]? =
        if j ∈ is ∧ j < a.length then some v else a[j]? := by
  intro is
  induction is with
  | nil => intro a; simp
  | cons i is ih =>
    intro a
    rw [List.foldl_cons, ih, List.length_set, List.getElem?_set]
    by_cases h1 : j < a.length <;> by_cases h2 : i = j <;> by_cases h3 : j ∈ is <;>
      simp [h1, h2, h3]
    all_goals first | omega | rw [if_neg (Ne.symm h2)]

theorem fillZero_getElem? (j : Nat) (b : Buf) :
    (fillZero b)[j]? = if j < 11 ∧ j < b.length then some 0 else b[j]? := by
  unfold fillZero
  rw [getElem?_foldl_set]
  simp only [List.mem_range]

theorem fillZero_eq (b : Buf) (hb : 11 ≤ b.length) :
    fillZero b = List.replicate 11 0 ++ b.drop 11 := by
  apply List.ext_getElem?
  intro j
  rw [fillZero_getElem?, List.getElem?_append]
  by_cases hj : j < 11
  · have hj2 : j < b.length := by omega
    rw [if_pos ⟨hj, hj2⟩, if_pos (by simpa using hj), List.getElem?_replicate, if_pos hj]
  · simp [hj, List.getElem?_drop]
    congr 1
    omega

theorem signMask_of_nonneg (x : Int) (h0 : 0 ≤ x) (h1 : x ≤ 2147483647) : signMask x = 0 := by
  unfold signMask
  rw [Int.shiftRight_eq_div_pow]
  norm_num
  omega

theorem signMask_of_neg (x : Int) (h0 : x < 0) (h1 : -2147483648 ≤ x) : signMask x = -1 := by
  unfold signMask
  rw [Int.shiftRight_eq_div_pow]
  norm_num
  omega

theorem magnitude_le (x : Int) : magnitude x ≤ 2147483647 := by
  unfold magnitude wrapInt32
  omega

theorem magnitude_lt_pow (x : Int) : magnitude x < 10 ^ 10 := by
  have := magnitude_le x
  norm_num
  omega

/-- The digit loop of the encoder leaves every byte from offset 11 on alone. -/
theorem digitLoop_drop (n : Int) (a : Buf) (hn : n < 10 ^ 10) :
    (digitLoop 10 n a).drop 11 = a.drop 11 := by
  apply List.ext_getElem?
  intro j
  rw [List.getElem?_drop, List.getElem?_drop,
    digitLoop_getElem?_outside (11 + j) 10 n a (by omega) hn (by omega)]

theorem digitLoop_append (n : Int) (a r : Buf) (ha : a.length = 11) (hn : n < 10 ^ 10) :
    digitLoop 10 n (a ++ r) = digitLoop 10 n a ++ r := by
  have ht : (digitLoop 10 n (a ++ r)).take 11 = digitLoop 10 n a := by
    rw [digitLoop_take, List.take_append_of_le_length (by omega), List.take_of_length_le (by omega)]
  have hd : (digitLoop 10 n (a ++ r)).drop 11 = r := by
    rw [digitLoop_drop _ _ hn, List.drop_append_of_le_length (by omega),
      List.drop_of_length_le (by omega), List.nil_append]
  rw [← List.take_append_drop 11 (digitLoop 10 n (a ++ r)), ht, hd]

/-- The encoder on a buffer of at least 11 bytes: the first 11 bytes are
those it writes into an all-zero 11-byte buffer, the rest is kept. -/
theorem encode_eq (b : Buf) (x : Int) (hb : 11 ≤ b.length) :
    seven_segConversion_solution b x =
      seven_segConversion_solution (List.replicate 11 0) x ++ b.drop 11 := by
  have hz : fillZero (List.replicate 11 0) = List.replicate 11 0 := by decide
  unfold seven_segConversion_solution
  simp only []
  rw [hz, fillZero_eq b hb]
  have hs : ∀ s : Nat, (List.replicate 11 0 ++ List.drop 11 b).set 0 s =
      (List.replicate 11 0).set 0 s ++ List.drop 11 b := by
    intro s
    rfl
  rw [hs, digitLoop_append _ _ _ (by simp) (magnitude_lt_pow x)]

theorem encode_length (b : Buf) (x : Int) :
    (seven_segConversion_solution b x).length = b.length := by
  unfold seven_segConversion_solution fillZero
  simp only []
  rw [digitLoop_length, List.length_set]
  generalize List.range 11 = is
  induction is generalizing b with
  | nil => rfl
  | cons i is ih => rw [List.foldl_cons, ih, List.length_set]

theorem encode_take (b : Buf) (x : Int) (hb : 11 ≤ b.length) :
    (seven_segConversion_solution b x).take 11 =
      seven_segConversion_solution (List.replicate 11 0) x := by
  rw [encode_eq b x hb, List.take_append_of_le_length (by rw [encode_length]; simp),
    List.take_of_length_le (by rw [encode_length]; simp)]

theorem encode_drop (b : Buf) (x : Int) (hb : 11 ≤ b.length) :
    (seven_segConversion_solution b x).drop 11 = b.drop 11 := by
  rw [encode_eq b x hb, List.drop_append_of_le_length (by rw [encode_length]; simp),
    List.drop_of_length_le (by rw [encode_length]; simp), List.nil_append]

theorem signByte_of_neg : toByte (Int.land (-1) 1) = 1 := by
  have h : Int.land (-1) 1 = 1 := by
    show Int.land (Int.negSucc 0) (Int.ofNat 1) = 1
    simp [Int.land, Nat.ldiff]
  rw [h]
  decide

theorem signByte_of_nonneg : toByte (Int.land 0 1) = 0 := by
  decide

theorem encode_of_magnitude_nonpos (b : Buf) (x : Int) (h : magnitude x ≤ 0) :
    seven_segConversion_solution b x =
      (fillZero b).set 0 (toByte (Int.land (signMask x) 1)) := by
  unfold seven_segConversion_solution
  simp only []
  rw [digitLoop_nonpos _ _ _ h]

theorem encode_getElem?_zero (b : Buf) (x : Int) (hb : 11 ≤ b.length) :
    (seven_segConversion_solution b x)[0]? = some (toByte (Int.land (signMask x) 1)) := by
  unfold seven_segConversion_solution
  simp only []
  rw [digitLoop_getElem?_outside 0 10 _ _ (by omega) (magnitude_lt_pow x) (Or.inl rfl),
    List.getElem?_set_self]
  rw [fillZero_eq b hb]
  simp

theorem encode_zero_eq (b : Buf) (hb : 11 ≤ b.length) :
    seven_segConversion_solution b 0 = [0, 0, 0, 0, 0, 0, 0, 0, 0, 0, 0] ++ b.drop 11 := by
  have hm : magnitude 0 = 0 := by decide
  rw [encode_eq b 0 hb, encode_of_magnitude_nonpos _ _ (by rw [hm])]
  congr 1

/-! ## The digit layout -/

theorem digits_length_le_ten (m : Nat) (h : m ≤ 2147483647) : (Nat.digits 10 m).length ≤ 10 := by
  by_cases h0 : m = 0
  · rw [h0]; simp
  · have h1 := Nat.base_pow_length_digits_le 10 m (by decide) h0
    have h2 : 10 ^ (Nat.digits 10 m).length < 10 ^ 11 := by
      calc 10 ^ (Nat.digits 10 m).length ≤ 10 * m := h1
        _ < 10 ^ 11 := by norm_num; omega
    have h3 := (Nat.pow_lt_pow_iff_right (by decide : 1 < 10)).1 h2
    omega

/-- The digit loop entered at `position = p` with the natural number `m`
writes the codes of the decimal digits of `m`, most-significant first, into the
slots that end at `p`, and changes nothing else. -/
theorem digitLoop_digits :
    ∀ (m p : Nat) (a : Buf), (Nat.digits 10 m).length ≤ p → p < a.length → p < 4294967296 →
      digitLoop p (m : Int) a =
        a.take (p + 1 - (Nat.digits 10 m).length) ++
          (Nat.digits 10 m).reverse.map (fun d => segMap.getD d 0) ++ a.drop (p + 1) := by
  intro m
  induction m using Nat.strong_induction_on with
  | _ m ih =>
    intro p a hlen hp hp2
    by_cases hm : m = 0
    · subst hm
      rw [digitLoop_nonpos _ _ _ (by simp)]
      simp
    · have hpos : 0 < m := Nat.pos_of_ne_zero hm
      have hdig := Nat.digits_def' (by decide : 1 < 10) hpos
      rw [hdig] at hlen ⊢
      simp only [List.length_cons] at hlen ⊢
      have hdiv : ((m : Int) / 10) = ((m / 10 : Nat) : Int) := by simp
      have hmod : ((m : Int) % 10).toNat = m % 10 := by omega
      have hpred : (p + 4294967295) % 4294967296 = p - 1 := by omega
      rw [digitLoop_pos _ _ _ (by omega), hdiv, hmod, hpred,
        ih (m / 10) (by omega) (p - 1) _ (by omega) (by rw [List.length_set]; omega) (by omega)]
      have e1 : p - 1 + 1 = p := by omega
      have e2 : p + 1 - ((Nat.digits 10 (m / 10)).length + 1) =
          p - (Nat.digits 10 (m / 10)).length := by omega
      have e3 : p - 1 + 1 - (Nat.digits 10 (m / 10)).length =
          p - (Nat.digits 10 (m / 10)).length := by omega
      rw [e3, e1, e2, List.set_take, List.set_eq_of_length_le (by rw [List.length_take]; omega),
        List.drop_set, if_neg (by omega), Nat.sub_self]
      simp
      rw [List.drop_eq_getElem_cons hp, List.set_cons_zero]

theorem xor_zero_of_nonneg (x : Int) (h : 0 ≤ x) : Int.xor x 0 = x := by
  obtain ⟨n, rfl⟩ := Int.eq_ofNat_of_zero_le h
  show Int.xor (Int.ofNat n) (Int.ofNat 0) = _
  simp [Int.xor]

theorem xor_neg_one_of_neg (x : Int) (h : x < 0) : Int.xor x (-1) = -x - 1 := by
  obtain ⟨n, rfl⟩ := Int.eq_negSucc_of_lt_zero h
  show Int.xor (Int.negSucc n) (Int.negSucc 0) = _
  simp [Int.xor, Int.negSucc_eq]

/-- Away from the most-negative value the magnitude is the absolute value. -/
theorem magnitude_eq_natAbs (x : Int) (hx : IsInt32 x) (hmin : x ≠ -2147483648) :
    magnitude x = (x.natAbs : Int) := by
  unfold magnitude
  by_cases h : x < 0
  · rw [signMask_of_neg x h hx.1, xor_neg_one_of_neg x h]
    unfold wrapInt32
    have := hx.1
    omega
  · rw [signMask_of_nonneg x (by omega) hx.2, xor_zero_of_nonneg x (by omega)]
    unfold wrapInt32
    have := hx.2
    omega

/-- Right-aligned layout of the encoder on an all-zero 11-byte buffer: the sign
slot, then zero slots, then the codes of the decimal digits of `|x|`. -/
theorem encode_layout (x : Int) (hx : IsInt32 x) (hmin : x ≠ -2147483648) :
    seven_segConversion_solution (List.replicate 11 0) x =
      (if x < 0 then 1 else 0) ::
        (List.replicate (10 - (Nat.digits 10 x.natAbs).length) 0 ++
          (Nat.digits 10 x.natAbs).reverse.map (fun d => segMap.getD d 0)) := by
  have hz : fillZero (List.replicate 11 0) = List.replicate 11 0 := by decide
  have habs : x.natAbs ≤ 2147483647 := by
    have h1 := hx.1
    have h2 := hx.2
    omega
  have hlen := digits_length_le_ten x.natAbs habs
  have hs : toByte (Int.land (signMask x) 1) = if x < 0 then 1 else 0 := by
    by_cases h : x < 0
    · rw [signMask_of_neg x h hx.1, if_pos h, signByte_of_neg]
    · rw [signMask_of_nonneg x (by omega) hx.2, if_neg h, signByte_of_nonneg]
  unfold seven_segConversion_solution
  simp only []
  rw [hz, hs, magnitude_eq_natAbs x hx hmin,
    digitLoop_digits _ 10 _ hlen (by simp) (by omega)]
  generalize (if x < 0 then 1 else 0 : Nat) = s
  generalize hd : (Nat.digits 10 x.natAbs).length = d at hlen
  have ht : List.take (10 + 1 - d) ((List.replicate 11 0).set 0 s) =
      s :: List.replicate (10 - d) 0 := by
    have : 10 + 1 - d = (10 - d) + 1 := by omega
    rw [this]
    show List.take (10 - d + 1) (s :: List.replicate 10 0) = _
    rw [List.take_succ_cons, List.take_replicate, Nat.min_eq_left (by omega)]
  rw [ht]
  simp

/-! ## Decoding -/

theorem segMap_inverse : ∀ d, d < 10 →
    segMap.getD d 0 ≠ 0 ∧ List.indexOf (segMap.getD d 0) segMap = d := by
  decide

theorem dropWhile_zero_codes (k : Nat) (ds : List Nat) (h : ∀ d ∈ ds, d < 10) :
    (List.replicate k 0 ++ ds.map (fun d => segMap.getD d 0)).dropWhile (fun c => c == 0) =
      ds.map (fun d => segMap.getD d 0) := by
  induction k with
  | zero =>
    rw [List.replicate_zero, List.nil_append]
    cases ds with
    | nil => rfl
    | cons d t =>
      rw [List.map_cons, List.dropWhile_cons_of_neg]
      simpa using (segMap_inverse d (h d (List.mem_cons_self _ _))).1
  | succ k ih =>
    rw [List.replicate_succ, List.cons_append, List.dropWhile_cons_of_pos (by rfl), ih]

theorem map_indexOf_codes (ds : List Nat) (h : ∀ d ∈ ds, d < 10) :
    (ds.map (fun d => segMap.getD d 0)).map (fun c => List.indexOf c segMap) = ds := by
  induction ds with
  | nil => rfl
  | cons d t ih =>
    rw [List.map_cons, List.map_cons, (segMap_inverse d (h d (List.mem_cons_self _ _))).2,
      ih (fun e he => h e (List.mem_cons_of_mem _ he))]

/-- Round trip away from the most-negative value: the buffer written for `x`
decodes to the decimal digits of `|x|`, most-significant first (the empty
sequence for `x = 0`). -/
theorem decode_encode (x : Int) (b : Buf) (hx : IsInt32 x) (hmin : x ≠ -2147483648)
    (hb : 11 ≤ b.length) :
    decodeDigits (seven_segConversion_solution b x) = (Nat.digits 10 x.natAbs).reverse := by
  have habs : x.natAbs ≤ 2147483647 := by
    have h1 := hx.1
    have h2 := hx.2
    omega
  have hlen := digits_length_le_ten x.natAbs habs
  have hdig : ∀ d ∈ (Nat.digits 10 x.natAbs).reverse, d < 10 := fun d hd =>
    Nat.digits_lt_base (by decide) (List.mem_reverse.1 hd)
  unfold decodeDigits
  rw [encode_eq b x hb, encode_layout x hx hmin, List.cons_append, List.drop_succ_cons,
    List.drop_zero, List.take_append_of_le_length (by simp; omega),
    List.take_of_length_le (by simp; omega), dropWhile_zero_codes _ _ hdig,
    map_indexOf_codes _ hdig]

/-! ## Claims about the encoder -/

/-- C2: for every `int32_t` value `x`, slot 0 of the buffer written by
`seven_segConversion_solution` is 1 if `x < 0` and 0 otherwise, and the digit
loop run on the magnitude of `x` never changes slot 0 of the buffer it is given. -/
theorem sign_slot (x : Int) (b : Buf) (hx : IsInt32 x) (hb : 11 ≤ b.length) :
    (seven_segConversion_solution b x)[0]? = some (if x < 0 then 1 else 0) ∧
      ∀ a : Buf, (digitLoop 10 (magnitude x) a)[0]? = a[0]? := by
  refine ⟨?_, fun a =>
    digitLoop_getElem?_outside 0 10 _ a (by omega) (magnitude_lt_pow x) (Or.inl rfl)⟩
  rw [encode_getElem?_zero b x hb]
  by_cases h : x < 0
  · rw [signMask_of_neg x h hx.1, if_pos h, signByte_of_neg]
  · rw [signMask_of_nonneg x (by omega) hx.2, if_neg h, signByte_of_nonneg]

/-- Witness of `sign_slot` at the most-negative input and a dirty 11-byte buffer. -/
theorem sign_slot_witness :
    IsInt32 (-2147483648) ∧ 11 ≤ (List.replicate 11 255).length ∧
      (seven_segConversion_solution (List.replicate 11 255) (-2147483648))[0]? =
        some (if (-2147483648 : Int) < 0 then 1 else 0) :=
  ⟨by decide, by decide, (sign_slot (-2147483648) (List.replicate 11 255) (by decide) (by decide)).1⟩

/-- C4 (evaluation at the failing input): on `-2147483648` the wrapped
magnitude is `-2147483648`, not `2147483648`; the loop condition
`segNumber > 0` fails at once and the buffer is the sign slot followed by ten
zero slots, not the codes of `2,1,4,7,4,8,3,6,4,8`. -/
theorem encode_int_min :
    magnitude (-2147483648) = -2147483648 ∧
      seven_segConversion_solution (List.replicate 11 255) (-2147483648) =
        [1, 0, 0, 0, 0, 0, 0, 0, 0, 0, 0] ∧
      [1, 0x6D, 0x30, 0x33, 0x70, 0x33, 0x7F, 0x79, 0x5F, 0x33, 0x7F] ≠
        seven_segConversion_solution (List.replicate 11 255) (-2147483648) := by
  have hm : magnitude (-2147483648) = -2147483648 := by decide
  have he : seven_segConversion_solution (List.replicate 11 255) (-2147483648) =
      [1, 0, 0, 0, 0, 0, 0, 0, 0, 0, 0] := by
    rw [encode_of_magnitude_nonpos _ _ (by rw [hm]; decide),
      signMask_of_neg _ (by decide) (by decide), signByte_of_neg]
    decide
  refine ⟨hm, he, ?_⟩
  rw [he]
  decide

/-- C3 (evaluation at the failing input): the buffer written for `-2147483648`
decodes to the empty digit sequence, while the decimal digits of its absolute
value are `2,1,4,7,4,8,3,6,4,8`. -/
theorem decode_int_min :
    decodeDigits (seven_segConversion_solution (List.replicate 11 0) (-2147483648)) = [] ∧
      (Nat.digits 10 (Int.natAbs (-2147483648))).reverse = [2, 1, 4, 7, 4, 8, 3, 6, 4, 8] := by
  constructor
  · rw [encode_of_magnitude_nonpos _ _ (by decide),
      signMask_of_neg _ (by decide) (by decide), signByte_of_neg]
    decide
  · norm_num

/-- C5: for the input 0 the first 11 bytes of the buffer are all zero (an
11-byte buffer becomes `[0,0,0,0,0,0,0,0,0,0,0]`), the loop condition is false on
entry so the digit loop returns its buffer untouched, and no slot holds `0x7E`. -/
theorem encode_zero (b : Buf) (hb : 11 ≤ b.length) :
    seven_segConversion_solution b 0 = [0, 0, 0, 0, 0, 0, 0, 0, 0, 0, 0] ++ b.drop 11 ∧
      (magnitude 0 = 0 ∧ ∀ a : Buf, digitLoop 10 (magnitude 0) a = a) ∧
      0x7E ∉ (seven_segConversion_solution b 0).take 11 := by
  have hm : magnitude 0 = 0 := by decide
  have he := encode_zero_eq b hb
  refine ⟨he, ⟨hm, fun a => digitLoop_nonpos _ _ _ (by rw [hm])⟩, ?_⟩
  rw [he, List.take_append_of_le_length (by simp), List.take_of_length_le (by simp)]
  decide

/-- Witness of `encode_zero` at an 11-byte buffer holding digit-zero codes. -/
theorem encode_zero_witness :
    11 ≤ (List.replicate 11 0x7E).length ∧
      seven_segConversion_solution (List.replicate 11 0x7E) 0 =
        [0, 0, 0, 0, 0, 0, 0, 0, 0, 0, 0] ++ (List.replicate 11 0x7E).drop 11 :=
  ⟨by decide, (encode_zero (List.replicate 11 0x7E) (by decide)).1⟩

/-- C7: the first 11 bytes written by `seven_segConversion_solution` depend only
on the input integer, not on the prior contents of the buffer, and encoding
twice into the same buffer equals encoding once. (Holds for every integer the
model accepts, in particular for every `int32_t`.) -/
theorem encode_independent (x : Int) (b1 b2 : Buf) (h1 : 11 ≤ b1.length) (h2 : 11 ≤ b2.length) :
    (seven_segConversion_solution b1 x).take 11 = (seven_segConversion_solution b2 x).take 11 ∧
      seven_segConversion_solution (seven_segConversion_solution b1 x) x =
        seven_segConversion_solution b1 x := by
  constructor
  · rw [encode_take b1 x h1, encode_take b2 x h2]
  · rw [encode_eq (seven_segConversion_solution b1 x) x (by rw [encode_length]; exact h1),
      encode_drop b1 x h1, ← encode_eq b1 x h1]

/-- Witness of `encode_independent` at `-42` with a dirty 11-byte and a dirty 13-byte buffer. -/
theorem encode_independent_witness :
    11 ≤ (List.replicate 11 255).length ∧ 11 ≤ (List.replicate 13 7).length ∧
      (seven_segConversion_solution (List.replicate 11 255) (-42)).take 11 =
        (seven_segConversion_solution (List.replicate 13 7) (-42)).take 11 :=
  ⟨by decide, by decide,
    (encode_independent (-42) (List.replicate 11 255) (List.replicate 13 7)
      (by decide) (by decide)).1⟩

/-! ## The worker -/

theorem encodeRange_length (lo hi : Nat) (src : List Int) (dst : List Buf) :
    (encodeRange lo hi src dst).length = dst.length := by
  unfold encodeRange
  rw [List.length_mapIdx]

theorem encodeRange_getElem? (lo hi : Nat) (src : List Int) (dst : List Buf) (j : Nat) :
    (encodeRange lo hi src dst)[j]? =
      (dst[j]?).map (fun b =>
        if lo ≤ j ∧ j < hi then seven_segConversion_solution b (src.getD j 0) else b) := by
  unfold encodeRange
  rw [List.getElem?_mapIdx]

theorem encodeRange_empty (lo hi : Nat) (src : List Int) (dst : List Buf) (h : hi ≤ lo) :
    encodeRange lo hi src dst = dst := by
  apply List.ext_getElem?
  intro j
  rw [encodeRange_getElem?]
  have hn : ¬ (lo ≤ j ∧ j < hi) := by omega
  simp only [if_neg hn]
  cases dst[j]? <;> rfl

/-- Encoding one more buffer in front of a range. -/
theorem encodeRange_step (lo hi : Nat) (src : List Int) (dst : List Buf) (h : lo < hi) :
    encodeRange (lo + 1) hi src
        (dst.set lo (seven_segConversion_solution (dst.getD lo []) (src.getD lo 0))) =
      encodeRange lo hi src dst := by
  apply List.ext_getElem?
  intro j
  rw [encodeRange_getElem?, encodeRange_getElem?, List.getElem?_set]
  by_cases hj : lo = j
  · subst hj
    have h1 : ¬ (lo + 1 ≤ lo ∧ lo < hi) := by omega
    have h2 : lo ≤ lo ∧ lo < hi := ⟨Nat.le_refl _, h⟩
    simp only [if_neg h1, if_pos h2, if_true]
    by_cases hl : lo < dst.length
    · simp [hl, List.getD_eq_getElem?_getD, List.getElem?_eq_getElem hl]
    · simp [hl, List.getElem?_eq_none (Nat.le_of_not_lt hl)]
  · have h3 : (lo + 1 ≤ j ∧ j < hi) ↔ (lo ≤ j ∧ j < hi) := by omega
    rw [if_neg hj]
    simp only [h3]

/-- Two adjacent ranges encoded one after the other are the joined range. -/
theorem encodeRange_append (a b c : Nat) (src : List Int) (dst : List Buf)
    (hab : a ≤ b) (hbc : b ≤ c) :
    encodeRange b c src (encodeRange a b src dst) = encodeRange a c src dst := by
  apply List.ext_getElem?
  intro j
  rw [encodeRange_getElem?, encodeRange_getElem?, encodeRange_getElem?]
  cases dst[j]? with
  | none => rfl
  | some x =>
    simp only [Option.map_some']
    by_cases h1 : a ≤ j ∧ j < b
    · have h2 : ¬ (b ≤ j ∧ j < c) := by omega
      have h3 : a ≤ j ∧ j < c := by omega
      rw [if_pos h1, if_neg h2, if_pos h3]
    · by_cases h2 : b ≤ j ∧ j < c
      · have h3 : a ≤ j ∧ j < c := by omega
        rw [if_neg h1, if_pos h2, if_pos h3]
      · have h3 : ¬ (a ≤ j ∧ j < c) := by omega
        rw [if_neg h1, if_neg h2, if_neg h3]

/-- On a range inside both arrays the worker loop runs to completion and
encodes exactly the buffers of the range. -/
theorem workerLoop_eq_encodeRange (src : List Int) (hi : Nat) (hs : hi ≤ src.length) :
    ∀ (k lo : Nat) (dst : List Buf), lo + k = hi → hi ≤ dst.length →
      workerLoop (hi : Int) src (lo : Int) dst = .ok (encodeRange lo hi src dst) := by
  intro k
  induction k with
  | zero =>
    intro lo dst h _
    rw [workerLoop_done _ _ _ _ (by omega), encodeRange_empty _ _ _ _ (by omega)]
  | succ k ih =>
    intro lo dst h hd
    have hlo : ((lo : Int) + 1) = ((lo + 1 : Nat) : Int) := by push_cast; rfl
    rw [workerLoop_step _ _ _ _ (by omega) (by omega) (by simp; omega) (by simp; omega),
      Int.toNat_ofNat, hlo, ih (lo + 1) _ (by omega) (by rw [List.length_set]; exact hd),
      encodeRange_step _ _ _ _ (by omega)]

theorem worker_eq_encodeRange (lo hi : Nat) (dst : List Buf) (src : List Int)
    (hd : hi ≤ dst.length) (hs : hi ≤ src.length) :
    worker (lo : Int) (hi : Int) dst src = .ok (encodeRange lo hi src dst) := by
  unfold worker
  by_cases h : lo ≤ hi
  · exact workerLoop_eq_encodeRange src hi hs (hi - lo) lo dst (by omega) hd
  · rw [workerLoop_done _ _ _ _ (by omega), encodeRange_empty _ _ _ _ (by omega)]

theorem worker_of_le (start stop : Int) (dst : List Buf) (src : List Int) (h : stop ≤ start) :
    worker start stop dst src = .ok dst := by
  unfold worker
  exact workerLoop_done _ _ _ _ h

theorem worker_of_neg (start stop : Int) (dst : List Buf) (src : List Int)
    (h : start < stop) (hneg : start < 0) :
    worker start stop dst src = .error .outOfBounds := by
  unfold worker
  exact workerLoop_fault _ _ _ _ h (by omega)

/-! ## The dispatcher -/

theorem mul_div_le_of_le (k T N : Nat) (h : k ≤ T) : k * (N / T) ≤ N :=
  Nat.le_trans (Nat.mul_le_mul_right _ h) (Nat.mul_div_le N T)

theorem wrapInt32_of_le (n : Nat) (h : n ≤ 2147483647) : wrapInt32 (n : Int) = n := by
  unfold wrapInt32
  omega

theorem chunkStart_eq (chunks index : Nat) (h : index * chunks ≤ 2147483647) :
    chunkStart chunks index = ((index * chunks : Nat) : Int) := by
  unfold chunkStart
  rw [Nat.mod_eq_of_lt (by omega), wrapInt32_of_le _ h]

theorem chunkEnd_last (totalThreads size chunks : Nat) (hT : 1 ≤ totalThreads)
    (hT2 : totalThreads < 4294967296) (h : size ≤ 2147483647) :
    chunkEnd totalThreads size chunks (totalThreads - 1) = (size : Int) := by
  unfold chunkEnd
  rw [if_pos (by omega), wrapInt32_of_le _ h]

theorem chunkEnd_inner (totalThreads size chunks index : Nat) (hT : 1 ≤ totalThreads)
    (hT2 : totalThreads < 4294967296) (hi : index ≠ totalThreads - 1)
    (h : (index + 1) * chunks ≤ 2147483647) :
    chunkEnd totalThreads size chunks index = (((index + 1) * chunks : Nat) : Int) := by
  have h1 : (index + 1) * chunks = index * chunks + chunks := by ring
  unfold chunkEnd
  rw [if_neg (by omega), chunkStart_eq _ _ (by omega)]
  have h2 : toUInt32 ((index * chunks : Nat) : Int) = index * chunks := by
    unfold toUInt32
    omega
  rw [h2, Nat.mod_eq_of_lt (by omega), wrapInt32_of_le _ (by omega), h1]

theorem runThreads_append (totalThreads size chunks : Nat) (src : List Int)
    (order : List Nat) (index : Nat) (dst d : List Buf)
    (h : runThreads totalThreads size chunks src order dst = .ok d) :
    runThreads totalThreads size chunks src (order ++ [index]) dst =
      worker (chunkStart chunks index) (chunkEnd totalThreads size chunks index) d src := by
  unfold runThreads at h ⊢
  rw [List.foldlM_append, h]
  simp only [List.foldlM_cons, List.foldlM_nil, bind_pure]
  rw [show (Except.ok d : Except Fault (List Buf)) = pure d from rfl, pure_bind]

/-- After the first `k` threads have run, exactly the buffers below the start
of thread `k` (all of `[0, size)` once `k = totalThreads`) are encoded. -/
theorem runThreads_range (totalThreads size : Nat) (dst : List Buf) (src : List Int)
    (hT : 1 ≤ totalThreads) (hT2 : totalThreads < 4294967296) (hN : size ≤ 2147483647)
    (hd : size ≤ dst.length) (hs : size ≤ src.length) :
    ∀ k, k ≤ totalThreads →
      runThreads totalThreads size (size / totalThreads) src (List.range k) dst =
        .ok (encodeRange 0
          (if k = totalThreads then size else k * (size / totalThreads)) src dst) := by
  intro k
  induction k with
  | zero =>
    intro _
    rw [if_neg (by omega), encodeRange_empty _ _ _ _ (by omega)]
    rfl
  | succ k ih =>
    intro hk
    have hkC : k * (size / totalThreads) ≤ size := mul_div_le_of_le _ _ _ (by omega)
    have hk1C : (k + 1) * (size / totalThreads) ≤ size := mul_div_le_of_le _ _ _ hk
    have hle : k * (size / totalThreads) ≤ (k + 1) * (size / totalThreads) :=
      Nat.mul_le_mul_right _ (by omega)
    have ih2 := ih (by omega)
    rw [if_neg (by omega)] at ih2
    rw [List.range_succ, runThreads_append _ _ _ _ _ _ _ _ ih2, chunkStart_eq _ _ (by omega)]
    by_cases hlast : k + 1 = totalThreads
    · have hk2 : k = totalThreads - 1 := by omega
      rw [if_pos hlast]
      rw [hk2, chunkEnd_last _ _ _ hT hT2 hN, ← hk2,
        worker_eq_encodeRange _ _ _ _ (by rw [encodeRange_length]; exact hd) hs,
        encodeRange_append _ _ _ _ _ (by omega) hkC]
    · rw [if_neg hlast, chunkEnd_inner _ _ _ _ hT hT2 (by omega) (by omega),
        worker_eq_encodeRange _ _ _ _ (by rw [encodeRange_length]; omega) (by omega),
        encodeRange_append _ _ _ _ _ (by omega) hle]

/-- The dispatcher on a count within the `int` range encodes exactly `[0, size)`. -/
theorem seven_seg_solution_eq (totalThreads size : Nat) (dst : List Buf) (src : List Int)
    (hT : 1 ≤ totalThreads) (hT2 : totalThreads < 4294967296) (hN : size ≤ 2147483647)
    (hd : size ≤ dst.length) (hs : size ≤ src.length) :
    seven_seg_solution totalThreads dst src size = .ok (encodeRange 0 size src dst) := by
  unfold seven_seg_solution
  rw [if_neg (by omega)]
  simp only []
  rw [runThreads_range totalThreads size dst src hT hT2 hN hd hs totalThreads (Nat.le_refl _),
    if_pos rfl]

theorem runThreads_nil (totalThreads size chunks : Nat) (src : List Int) (dst : List Buf) :
    runThreads totalThreads size chunks src [] dst = .ok dst := by
  unfold runThreads
  rw [List.foldlM_nil]
  rfl

theorem runThreads_cons (totalThreads size chunks : Nat) (src : List Int)
    (index : Nat) (order : List Nat) (dst d : List Buf)
    (h : worker (chunkStart chunks index) (chunkEnd totalThreads size chunks index) dst src
      = .ok d) :
    runThreads totalThreads size chunks src (index :: order) dst =
      runThreads totalThreads size chunks src order d := by
  unfold runThreads
  rw [List.foldlM_cons, h, show (Except.ok d : Except Fault (List Buf)) = pure d from rfl,
    pure_bind]

/-- Threads whose ranges are all empty leave the buffers alone. -/
theorem runThreads_of_empty (totalThreads size chunks : Nat) (src : List Int) :
    ∀ (order : List Nat) (dst : List Buf),
      (∀ index ∈ order, chunkEnd totalThreads size chunks index ≤ chunkStart chunks index) →
      runThreads totalThreads size chunks src order dst = .ok dst := by
  intro order
  induction order with
  | nil => intro dst _; exact runThreads_nil _ _ _ _ _
  | cons index order ih =>
    intro dst h
    rw [runThreads_cons _ _ _ _ _ _ _ dst
      (worker_of_le _ _ _ _ (h index (List.mem_cons_self _ _)))]
    exact ih dst (fun i hi => h i (List.mem_cons_of_mem _ hi))

/-- With one thread and a count of at least `2^31` the only chunk ends at a
negative `int`, so nothing is encoded. -/
theorem seven_seg_solution_one_thread_wrap (size : Nat) (dst : List Buf) (src : List Int)
    (h1 : 2147483648 ≤ size) (h2 : size < 4294967296) :
    seven_seg_solution 1 dst src size = .ok dst := by
  unfold seven_seg_solution
  rw [if_neg (by omega)]
  simp only []
  apply runThreads_of_empty
  intro index hi
  have h0 : index = 0 := by simpa using hi
  subst h0
  unfold chunkEnd chunkStart wrapInt32
  rw [if_pos (by omega)]
  omega

theorem getD_replicate_zero (n : Nat) (b : Buf) (h : 0 < n) :
    (List.replicate n b).getD 0 [] = b := by
  rw [List.getD_eq_getElem?_getD, List.getElem?_replicate, if_pos h]
  rfl

theorem encodeRange_getD (lo hi : Nat) (src : List Int) (dst : List Buf) (j : Nat) :
    (encodeRange lo hi src dst).getD j [] =
      if lo ≤ j ∧ j < hi ∧ j < dst.length then
        seven_segConversion_solution (dst.getD j []) (src.getD j 0)
      else dst.getD j [] := by
  rw [List.getD_eq_getElem?_getD, List.getD_eq_getElem?_getD, encodeRange_getElem?]
  by_cases hj : j < dst.length
  · rw [List.getElem?_eq_getElem hj]
    by_cases h : lo ≤ j ∧ j < hi
    · rw [if_pos ⟨h.1, h.2, hj⟩]
      simp only [Option.map_some', Option.getD_some, if_pos h]
    · rw [if_neg (fun h2 => h ⟨h2.1, h2.2.1⟩)]
      simp only [Option.map_some', Option.getD_some, if_neg h]
  · rw [List.getElem?_eq_none (Nat.le_of_not_lt hj), if_neg (fun h2 => hj h2.2.2)]
    rfl

theorem length_getD_of_forall (dst : List Buf) (hb : ∀ b ∈ dst, 11 ≤ b.length) (i : Nat)
    (hi : i < dst.length) : 11 ≤ (dst.getD i []).length := by
  rw [List.getD_eq_getElem?_getD, List.getElem?_eq_getElem hi]
  exact hb _ (List.getElem_mem hi)

/-! ## Claims about the dispatcher -/

/-- C1 (evaluation at a failing input): with one thread and `size = 2^31`, on
arrays of `2^31` elements with 11-byte buffers, the call returns with every
output buffer untouched, so the first 11 bytes of `dst[0]` are not the encoding
of `src[0]`. -/
theorem seven_seg_solution_large_count :
    seven_seg_solution 1 (List.replicate 2147483648 (List.replicate 11 255))
        (List.replicate 2147483648 0) 2147483648 =
      .ok (List.replicate 2147483648 (List.replicate 11 255)) ∧
    ((List.replicate 2147483648 (List.replicate 11 255)).getD 0 []).take 11 ≠
      (seven_segConversion_solution (List.replicate 11 255)
        ((List.replicate 2147483648 (0 : Int)).getD 0 0)).take 11 := by
  refine ⟨seven_seg_solution_one_thread_wrap _ _ _ (by omega) (by omega), ?_⟩
  have hs : (List.replicate 2147483648 (0 : Int)).getD 0 0 = 0 := by
    rw [List.getD_eq_getElem?_getD, List.getElem?_replicate, if_pos (by omega)]
    rfl
  rw [getD_replicate_zero _ _ (by omega), hs, encode_zero_eq _ (by decide)]
  decide

/-- Functional correctness within the `int` range of the count: for every
thread count `T ≥ 1`, every count `N ≤ 2^31 - 1` and arrays of length at least
`N` whose buffers have at least 11 bytes, the call returns, and for every
`i < N` the first 11 bytes of `dst[i]` are the encoding that
`seven_segConversion_solution` produces for `src[i]` (in any buffer). -/
theorem seven_seg_solution_correct (totalThreads size : Nat) (dst : List Buf) (src : List Int)
    (hT : 1 ≤ totalThreads) (hT2 : totalThreads < 4294967296) (hN : size ≤ 2147483647)
    (hd : size ≤ dst.length) (hs : size ≤ src.length) (hb : ∀ b ∈ dst, 11 ≤ b.length) :
    ∃ out, seven_seg_solution totalThreads dst src size = .ok out ∧
      out.length = dst.length ∧
      ∀ i, i < size → ∀ b : Buf, 11 ≤ b.length →
        (out.getD i []).take 11 = (seven_segConversion_solution b (src.getD i 0)).take 11 := by
  refine ⟨_, seven_seg_solution_eq totalThreads size dst src hT hT2 hN hd hs,
    encodeRange_length _ _ _ _, ?_⟩
  intro i hi b hlen
  rw [encodeRange_getD, if_pos ⟨Nat.zero_le _, hi, by omega⟩,
    encode_take _ _ (length_getD_of_forall dst hb i (by omega)), encode_take _ _ hlen]

/-- An instance of `seven_seg_solution_correct`: three threads on two inputs. -/
theorem seven_seg_solution_correct_witness :
    ∃ out, seven_seg_solution 3 [List.replicate 11 255, List.replicate 12 9] [7, -42] 2 = .ok out ∧
      out.length = [List.replicate 11 255, List.replicate 12 9].length ∧
      ∀ i, i < 2 → ∀ b : Buf, 11 ≤ b.length →
        (out.getD i []).take 11 =
          (seven_segConversion_solution b (([7, -42] : List Int).getD i 0)).take 11 :=
  seven_seg_solution_correct 3 2 [List.replicate 11 255, List.replicate 12 9] [7, -42]
    (by decide) (by decide) (by decide) (by decide) (by decide) (by decide)

/-- The chunk of thread `index` when the count fits an `int`: the products do
not wrap and are the mathematical values. -/
theorem chunk_range_eq (totalThreads size index : Nat) (hT : 1 ≤ totalThreads)
    (hT2 : totalThreads < 4294967296) (hN : size ≤ 2147483647) (hi : index < totalThreads) :
    chunkStart (size / totalThreads) index = ((index * (size / totalThreads) : Nat) : Int) ∧
      chunkEnd totalThreads size (size / totalThreads) index =
        ((if index = totalThreads - 1 then size
          else (index + 1) * (size / totalThreads) : Nat) : Int) := by
  have h1 : index * (size / totalThreads) ≤ size := mul_div_le_of_le _ _ _ (by omega)
  refine ⟨chunkStart_eq _ _ (by omega), ?_⟩
  by_cases hl : index = totalThreads - 1
  · rw [if_pos hl, hl, chunkEnd_last _ _ _ hT hT2 hN]
  · have h2 : (index + 1) * (size / totalThreads) ≤ size := mul_div_le_of_le _ _ _ (by omega)
    rw [if_neg hl, chunkEnd_inner _ _ _ _ hT hT2 hl (by omega)]

/-- C6 (evaluation at a failing input): with one thread and `size = 2^31` the
only chunk is `[0, -2^31)` as `int` values: its end is not `size` and index 0
lies in no chunk. -/
theorem chunks_large_count :
    chunkStart (2147483648 / 1) 0 = 0 ∧
      chunkEnd 1 2147483648 (2147483648 / 1) 0 = -2147483648 ∧
      ¬ (chunkStart (2147483648 / 1) 0 ≤ 0 ∧ (0 : Int) < chunkEnd 1 2147483648 (2147483648 / 1) 0) := by
  decide

/-- Partitioning coverage within the `int` range of the count: for every count
`N ≤ 2^31 - 1` and every thread count `T ≥ 1`, the chunk ranges `[start_i, end_i)` that `seven_seg_solution` passes to
`worker` for `i` in `[0, T)` contain every index of `[0, N)` in exactly one chunk
and no index outside `[0, N)`, and the last chunk ends at `N`. -/
theorem chunks_partition (totalThreads size : Nat) (hT : 1 ≤ totalThreads)
    (hT2 : totalThreads < 4294967296) (hN : size ≤ 2147483647) :
    (∀ j : Nat, j < size → ∃! index, index < totalThreads ∧
        chunkStart (size / totalThreads) index ≤ (j : Int) ∧
        (j : Int) < chunkEnd totalThreads size (size / totalThreads) index) ∧
    (∀ index, index < totalThreads → ∀ j : Int,
        chunkStart (size / totalThreads) index ≤ j →
        j < chunkEnd totalThreads size (size / totalThreads) index → 0 ≤ j ∧ j < size) ∧
    chunkEnd totalThreads size (size / totalThreads) (totalThreads - 1) = size := by
  have hlast : (totalThreads - 1) * (size / totalThreads) ≤ size :=
    mul_div_le_of_le _ _ _ (by omega)
  refine ⟨?_, ?_, chunkEnd_last _ _ _ hT hT2 hN⟩
  · intro j hj
    by_cases hlt : j < (totalThreads - 1) * (size / totalThreads)
    · -- an inner chunk
      have hC : 0 < size / totalThreads := by
        rcases Nat.eq_zero_or_pos (size / totalThreads) with h0 | h0
        · rw [h0] at hlt; omega
        · exact h0
      have hidx : j / (size / totalThreads) < totalThreads - 1 :=
        Nat.div_lt_of_lt_mul (by rw [Nat.mul_comm]; exact hlt)
      have hlo : j / (size / totalThreads) * (size / totalThreads) ≤ j := Nat.div_mul_le_self _ _
      have hhi : j < (j / (size / totalThreads) + 1) * (size / totalThreads) := by
        rw [Nat.mul_comm]
        exact Nat.lt_mul_div_succ j hC
      refine ⟨j / (size / totalThreads), ⟨by omega, ?_, ?_⟩, ?_⟩
      · rw [(chunk_range_eq totalThreads size _ hT hT2 hN (by omega)).1]
        exact_mod_cast hlo
      · rw [(chunk_range_eq totalThreads size _ hT hT2 hN (by omega)).2, if_neg (by omega)]
        exact_mod_cast hhi
      · rintro i ⟨hi, hs, he⟩
        rw [(chunk_range_eq totalThreads size i hT hT2 hN hi).1] at hs
        rw [(chunk_range_eq totalThreads size i hT hT2 hN hi).2] at he
        have hs2 : i * (size / totalThreads) ≤ j := by exact_mod_cast hs
        by_cases hil : i = totalThreads - 1
        · rw [hil] at hs2; omega
        · rw [if_neg hil] at he
          have he2 : j < (i + 1) * (size / totalThreads) := by exact_mod_cast he
          exact (Nat.div_eq_of_lt_le hs2 he2).symm
    · -- the last chunk
      refine ⟨totalThreads - 1, ⟨by omega, ?_, ?_⟩, ?_⟩
      · rw [(chunk_range_eq totalThreads size _ hT hT2 hN (by omega)).1]
        exact_mod_cast Nat.le_of_not_lt hlt
      · rw [chunkEnd_last _ _ _ hT hT2 hN]
        exact_mod_cast hj
      · rintro i ⟨hi, _, he⟩
        rw [(chunk_range_eq totalThreads size i hT hT2 hN hi).2] at he
        by_cases hil : i = totalThreads - 1
        · exact hil
        · rw [if_neg hil] at he
          have he2 : j < (i + 1) * (size / totalThreads) := by exact_mod_cast he
          have hmono : (i + 1) * (size / totalThreads) ≤
              (totalThreads - 1) * (size / totalThreads) :=
            Nat.mul_le_mul_right _ (by omega)
          omega
  · intro index hi j hs he
    rw [(chunk_range_eq totalThreads size index hT hT2 hN hi).1] at hs
    rw [(chunk_range_eq totalThreads size index hT hT2 hN hi).2] at he
    by_cases hil : index = totalThreads - 1
    · rw [if_pos hil] at he
      omega
    · rw [if_neg hil] at he
      have h2 : (index + 1) * (size / totalThreads) ≤ size := mul_div_le_of_le _ _ _ (by omega)
      omega

/-- An instance of `chunks_partition`: ten inputs on three threads. -/
theorem chunks_partition_witness :
    (∀ j : Nat, j < 10 → ∃! index, index < 3 ∧
        chunkStart (10 / 3) index ≤ (j : Int) ∧ (j : Int) < chunkEnd 3 10 (10 / 3) index) ∧
    (∀ index, index < 3 → ∀ j : Int,
        chunkStart (10 / 3) index ≤ j → j < chunkEnd 3 10 (10 / 3) index → 0 ≤ j ∧ j < 10) ∧
    chunkEnd 3 10 (10 / 3) (3 - 1) = (10 : Nat) :=
  chunks_partition 3 10 (by decide) (by decide) (by decide)

/-- C8 (evaluation at the failing input): with a reported thread count of 0 the
statement `chunks = size / totalThreads` divides by zero and no input is
converted, whereas with one thread the same call converts its input. -/
theorem seven_seg_solution_zero_threads :
    seven_seg_solution 0 [List.replicate 11 0] [5] 1 = .error .divisionByZero ∧
      seven_seg_solution 1 [List.replicate 11 0] [5] 1 =
        .ok [seven_segConversion_solution (List.replicate 11 0) 5] := by
  constructor
  · unfold seven_seg_solution
    rw [if_pos rfl]
  · rw [seven_seg_solution_eq 1 1 _ _ (by decide) (by decide) (by decide) (by decide) (by decide)]
    unfold encodeRange
    rw [List.mapIdx_singleton, if_pos (by decide)]
    rfl

/-- C9: for count `N = 0` and every thread count `T ≥ 1`, every chunk is the
empty range `[0, 0)`, the worker called on it returns at its first loop test
without touching any buffer, and the call returns the output array unchanged,
whatever the arrays are (even empty ones, on which any encoder call would be an
out-of-bounds access). -/
theorem zero_count_noop (totalThreads : Nat) (dst : List Buf) (src : List Int)
    (hT : 1 ≤ totalThreads) :
    (∀ index, index < totalThreads →
        chunkStart (0 / totalThreads) index = 0 ∧
        chunkEnd totalThreads 0 (0 / totalThreads) index = 0) ∧
      (∀ d : List Buf, worker 0 0 d src = .ok d) ∧
      seven_seg_solution totalThreads dst src 0 = .ok dst := by
  have hc : ∀ index, chunkStart (0 / totalThreads) index = 0 ∧
      chunkEnd totalThreads 0 (0 / totalThreads) index = 0 := by
    intro index
    have h0 : chunkStart (0 / totalThreads) index = 0 := by
      unfold chunkStart
      rw [Nat.zero_div, Nat.mul_zero]
      rfl
    refine ⟨h0, ?_⟩
    unfold chunkEnd
    rw [h0, Nat.zero_div]
    split <;> rfl
  refine ⟨fun index _ => hc index, fun d => worker_of_le _ _ _ _ (Int.le_refl _), ?_⟩
  unfold seven_seg_solution
  rw [if_neg (by omega)]
  simp only []
  apply runThreads_of_empty
  intro index _
  rw [(hc index).1, (hc index).2]

/-- Witness of `zero_count_noop`: four threads, no input, empty arrays. -/
theorem zero_count_noop_witness :
    seven_seg_solution 4 [] [] 0 = .ok [] :=
  (zero_count_noop 4 [] [] (by decide)).2.2

/-- With three threads and `size = 2^32 - 1` the third thread is given the
range `[-1431655766, -1)` and reads `dst[-1431655766]`. -/
theorem seven_seg_solution_three_threads_wrap (dst : List Buf) (src : List Int)
    (hd : 1431655765 ≤ dst.length) (hs : 1431655765 ≤ src.length) :
    seven_seg_solution 3 dst src 4294967295 = .error .outOfBounds := by
  have hC : 4294967295 / 3 = 1431655765 := by decide
  have hr : List.range 3 = [0, 1] ++ [2] := by decide
  have s0 : chunkStart 1431655765 0 = ((0 : Nat) : Int) := by decide
  have e0 : chunkEnd 3 4294967295 1431655765 0 = ((1431655765 : Nat) : Int) := by decide
  have s1 : chunkStart 1431655765 1 = 1431655765 := by decide
  have e1 : chunkEnd 3 4294967295 1431655765 1 = -1431655766 := by decide
  have s2 : chunkStart 1431655765 2 = -1431655766 := by decide
  have e2 : chunkEnd 3 4294967295 1431655765 2 = -1 := by decide
  have w0 : worker (chunkStart 1431655765 0) (chunkEnd 3 4294967295 1431655765 0) dst src =
      .ok (encodeRange 0 1431655765 src dst) := by
    rw [s0, e0]
    exact worker_eq_encodeRange 0 1431655765 dst src hd hs
  have w1 : worker (chunkStart 1431655765 1) (chunkEnd 3 4294967295 1431655765 1)
      (encodeRange 0 1431655765 src dst) src = .ok (encodeRange 0 1431655765 src dst) := by
    rw [s1, e1]
    exact worker_of_le _ _ _ _ (by decide)
  have hrun : runThreads 3 4294967295 1431655765 src [0, 1] dst =
      .ok (encodeRange 0 1431655765 src dst) := by
    rw [runThreads_cons _ _ _ _ _ _ _ _ w0, runThreads_cons _ _ _ _ _ _ _ _ w1, runThreads_nil]
  unfold seven_seg_solution
  rw [if_neg (by decide)]
  simp only []
  rw [hC, hr, runThreads_append _ _ _ _ _ _ _ _ hrun, s2, e2]
  exact worker_of_neg _ _ _ _ (by decide) (by decide)

/-- C10 (evaluation at a failing input): with three threads and
`size = 2^32 - 1`, on arrays of `2^32 - 1` elements with 11-byte buffers, the
call does not stay inside `dst[0..N-1]`: the third thread accesses `dst` at a
negative index. -/
theorem seven_seg_solution_frame_large_count :
    seven_seg_solution 3 (List.replicate 4294967295 (List.replicate 11 0))
        (List.replicate 4294967295 0) 4294967295 = .error .outOfBounds :=
  seven_seg_solution_three_threads_wrap _ _
    (by rw [List.length_replicate]; omega) (by rw [List.length_replicate]; omega)

/-- Frame within the `int` range of the count: for every `T ≥ 1` and
`N ≤ 2^31 - 1`, on arrays of length at
least `N` whose buffers have at least 11 bytes, the call returns and has
modified nothing except the first 11 bytes of `dst[0..N-1]`: the array keeps its
length, every buffer of index `≥ N` is unchanged, and in every buffer the bytes
from offset 11 on are unchanged. (The input array is never written: the
embedding passes it as a value that no function returns.) -/
theorem seven_seg_solution_frame (totalThreads size : Nat) (dst : List Buf) (src : List Int)
    (hT : 1 ≤ totalThreads) (hT2 : totalThreads < 4294967296) (hN : size ≤ 2147483647)
    (hd : size ≤ dst.length) (hs : size ≤ src.length) (hb : ∀ b ∈ dst, 11 ≤ b.length) :
    ∃ out, seven_seg_solution totalThreads dst src size = .ok out ∧
      out.length = dst.length ∧
      (∀ i, size ≤ i → out[i]? = dst[i]?) ∧
      (∀ i, (out.getD i []).drop 11 = (dst.getD i []).drop 11) := by
  refine ⟨_, seven_seg_solution_eq totalThreads size dst src hT hT2 hN hd hs,
    encodeRange_length _ _ _ _, ?_, ?_⟩
  · intro i hi
    rw [encodeRange_getElem?]
    have hn : ¬ (0 ≤ i ∧ i < size) := by omega
    simp only [if_neg hn]
    cases dst[i]? <;> rfl
  · intro i
    rw [encodeRange_getD]
    split
    · next h => exact encode_drop _ _ (length_getD_of_forall dst hb i h.2.2)
    · rfl

/-- An instance of `seven_seg_solution_frame`: two threads, two inputs, three dirty buffers. -/
theorem seven_seg_solution_frame_witness :
    ∃ out, seven_seg_solution 2
        [List.replicate 11 255, List.replicate 12 9, List.replicate 11 3] [7, -42] 2 = .ok out ∧
      out.length = [List.replicate 11 255, List.replicate 12 9, List.replicate 11 3].length ∧
      (∀ i, 2 ≤ i →
        out[i]? = [List.replicate 11 255, List.replicate 12 9, List.replicate 11 3][i]?) ∧
      (∀ i, (out.getD i []).drop 11 =
        ([List.replicate 11 255, List.replicate 12 9, List.replicate 11 3].getD i []).drop 11) :=
  seven_seg_solution_frame 2 2
    [List.replicate 11 255, List.replicate 12 9, List.replicate 11 3] [7, -42]
    (by decide) (by decide) (by decide) (by decide) (by decide) (by decide)

/-! ## Claims about the worker -/

theorem encodeRange_getElem?_of_mem (lo hi : Nat) (src : List Int) (dst : List Buf) (j : Nat)
    (h1 : lo ≤ j) (h2 : j < hi) (hj : j < dst.length) :
    (encodeRange lo hi src dst)[j]? =
      some (seven_segConversion_solution (dst.getD j []) (src.getD j 0)) := by
  have e : dst.getD j [] = dst[j] := by
    rw [List.getD_eq_getElem?_getD, List.getElem?_eq_getElem hj]
    rfl
  rw [encodeRange_getElem?, e, List.getElem?_eq_getElem hj]
  simp only [Option.map_some', if_pos (And.intro h1 h2)]

theorem encodeRange_getElem?_of_not_mem (lo hi : Nat) (src : List Int) (dst : List Buf) (j : Nat)
    (h : ¬ (lo ≤ j ∧ j < hi)) : (encodeRange lo hi src dst)[j]? = dst[j]? := by
  rw [encodeRange_getElem?]
  simp only [if_neg h]
  cases dst[j]? <;> rfl

/-- C15: for every `start`, `end` and arrays `dst`, `src` with `0 ≤ start` and
`end` at most the length of both arrays, `worker(start, end, dst, src)` returns,
sets `dst[i]` to the encoding of `src[i]` for exactly the indices
`start ≤ i < end`, and leaves every other output buffer unchanged; when
`start ≥ end` it changes nothing. -/
theorem worker_spec (start stop : Int) (dst : List Buf) (src : List Int)
    (h0 : 0 ≤ start) (hd : stop ≤ dst.length) (hs : stop ≤ src.length) :
    ∃ out, worker start stop dst src = .ok out ∧ out.length = dst.length ∧
      (∀ i : Nat, start ≤ i → (i : Int) < stop →
        out[i]? = some (seven_segConversion_solution (dst.getD i []) (src.getD i 0))) ∧
      (∀ i : Nat, ¬ (start ≤ i ∧ (i : Int) < stop) → out[i]? = dst[i]?) ∧
      (stop ≤ start → out = dst) := by
  by_cases hle : stop ≤ start
  · refine ⟨dst, worker_of_le _ _ _ _ hle, rfl, ?_, fun _ _ => rfl, fun _ => rfl⟩
    intro i h1 h2
    omega
  · have e1 : start = ((start.toNat : Nat) : Int) := by omega
    have e2 : stop = ((stop.toNat : Nat) : Int) := by omega
    have hw := worker_eq_encodeRange start.toNat stop.toNat dst src (by omega) (by omega)
    rw [← e1, ← e2] at hw
    refine ⟨_, hw, encodeRange_length _ _ _ _, ?_, ?_, fun h => absurd h hle⟩
    · intro i h1 h2
      exact encodeRange_getElem?_of_mem _ _ _ _ _ (by omega) (by omega) (by omega)
    · intro i h
      exact encodeRange_getElem?_of_not_mem _ _ _ _ _ (by omega)

/-- Witness of `worker_spec`: the range `[1, 3)` of four buffers. -/
theorem worker_spec_witness :
    ∃ out, worker 1 3 (List.replicate 4 (List.replicate 11 255)) [7, -42, 0, 105] = .ok out ∧
      out.length = (List.replicate 4 (List.replicate 11 255)).length ∧
      (∀ i : Nat, (1 : Int) ≤ i → (i : Int) < 3 →
        out[i]? = some (seven_segConversion_solution
          ((List.replicate 4 (List.replicate 11 255)).getD i [])
          (([7, -42, 0, 105] : List Int).getD i 0))) ∧
      (∀ i : Nat, ¬ ((1 : Int) ≤ i ∧ (i : Int) < 3) →
        out[i]? = (List.replicate 4 (List.replicate 11 255))[i]?) ∧
      ((3 : Int) ≤ 1 → out = List.replicate 4 (List.replicate 11 255)) :=
  worker_spec 1 3 (List.replicate 4 (List.replicate 11 255)) [7, -42, 0, 105]
    (by decide) (by decide) (by decide)

/-! ## Claims about the chunk arithmetic and the schedule -/

theorem encodeRange_comm (a b c d : Nat) (src : List Int) (dst : List Buf) :
    encodeRange a b src (encodeRange c d src dst) =
      encodeRange c d src (encodeRange a b src dst) := by
  apply List.ext_getElem?
  intro j
  rw [encodeRange_getElem?, encodeRange_getElem?, encodeRange_getElem?, encodeRange_getElem?]
  cases dst[j]? with
  | none => rfl
  | some x =>
    simp only [Option.map_some']
    by_cases h1 : a ≤ j ∧ j < b <;> by_cases h2 : c ≤ j ∧ j < d
    · rw [if_pos h1, if_pos h2, if_pos h1, if_pos h2]
    · rw [if_pos h1, if_neg h2, if_neg h2, if_pos h1]
    · rw [if_neg h1, if_pos h2, if_pos h2, if_neg h1]
    · rw [if_neg h1, if_neg h2, if_neg h2, if_neg h1]

/-- The worker call of thread `index` when the count fits an `int`. -/
theorem worker_chunk_eq (totalThreads size index : Nat) (d : List Buf) (src : List Int)
    (hT : 1 ≤ totalThreads) (hT2 : totalThreads < 4294967296) (hN : size ≤ 2147483647)
    (hi : index < totalThreads) (hd : size ≤ d.length) (hs : size ≤ src.length) :
    worker (chunkStart (size / totalThreads) index)
        (chunkEnd totalThreads size (size / totalThreads) index) d src =
      .ok (encodeRange (index * (size / totalThreads))
        (if index = totalThreads - 1 then size else (index + 1) * (size / totalThreads))
        src d) := by
  have hr := chunk_range_eq totalThreads size index hT hT2 hN hi
  rw [hr.1, hr.2]
  by_cases hl : index = totalThreads - 1
  · rw [if_pos hl]
    exact worker_eq_encodeRange _ _ _ _ hd hs
  · have h2 : (index + 1) * (size / totalThreads) ≤ size := mul_div_le_of_le _ _ _ (by omega)
    rw [if_neg hl]
    exact worker_eq_encodeRange _ _ _ _ (by omega) (by omega)

/-- Reordering the threads does not change the result of their worker calls. -/
theorem runThreads_perm (totalThreads size : Nat) (src : List Int)
    (hT : 1 ≤ totalThreads) (hT2 : totalThreads < 4294967296) (hN : size ≤ 2147483647)
    (hs : size ≤ src.length) (l1 l2 : List Nat) (hp : l1.Perm l2) :
    (∀ i ∈ l1, i < totalThreads) → ∀ dst : List Buf, size ≤ dst.length →
      runThreads totalThreads size (size / totalThreads) src l1 dst =
        runThreads totalThreads size (size / totalThreads) src l2 dst := by
  induction hp with
  | nil => intro _ dst _; rfl
  | cons x _ ih =>
    intro hlt dst hd
    have hx := worker_chunk_eq totalThreads size x dst src hT hT2 hN
      (hlt x (List.mem_cons_self _ _)) hd hs
    rw [runThreads_cons _ _ _ _ _ _ _ _ hx, runThreads_cons _ _ _ _ _ _ _ _ hx]
    exact ih (fun i hi => hlt i (List.mem_cons_of_mem _ hi)) _
      (by rw [encodeRange_length]; exact hd)
  | swap x y l =>
    intro hlt dst hd
    have hxlt : x < totalThreads := hlt x (List.mem_cons_of_mem _ (List.mem_cons_self _ _))
    have hylt : y < totalThreads := hlt y (List.mem_cons_self _ _)
    have hx := worker_chunk_eq totalThreads size x dst src hT hT2 hN hxlt hd hs
    have hy := worker_chunk_eq totalThreads size y dst src hT hT2 hN hylt hd hs
    have hxy := worker_chunk_eq totalThreads size x _ src hT hT2 hN hxlt
      (show size ≤ (encodeRange (y * (size / totalThreads))
        (if y = totalThreads - 1 then size else (y + 1) * (size / totalThreads))
        src dst).length by rw [encodeRange_length]; exact hd) hs
    have hyx := worker_chunk_eq totalThreads size y _ src hT hT2 hN hylt
      (show size ≤ (encodeRange (x * (size / totalThreads))
        (if x = totalThreads - 1 then size else (x + 1) * (size / totalThreads))
        src dst).length by rw [encodeRange_length]; exact hd) hs
    rw [runThreads_cons _ _ _ _ _ _ _ _ hy, runThreads_cons _ _ _ _ _ _ _ _ hxy,
      runThreads_cons _ _ _ _ _ _ _ _ hx, runThreads_cons _ _ _ _ _ _ _ _ hyx,
      encodeRange_comm]
  | trans h1 _ ih1 ih2 =>
    intro hlt dst hd
    rw [ih1 hlt dst hd, ih2 (fun i hi => hlt i (h1.mem_iff.2 hi)) dst hd]

/-- C17: for every count `N ≤ 2^31 - 1` and every thread count `T ≥ 1`, the
values that `seven_seg_solution` computes for `start` and `end` of a thread do
not wrap: as `int` they are `i * C` and `N` (last thread) or `i * C + C`, they
satisfy `0 ≤ start ≤ end ≤ N`, and the worker call on them never leaves arrays
of length at least `N`. -/
theorem chunk_bounds_no_wrap (totalThreads size index : Nat)
    (hT : 1 ≤ totalThreads) (hT2 : totalThreads < 4294967296) (hN : size ≤ 2147483647)
    (hi : index < totalThreads) :
    chunkStart (size / totalThreads) index = ((index * (size / totalThreads) : Nat) : Int) ∧
      chunkEnd totalThreads size (size / totalThreads) index =
        ((if index = totalThreads - 1 then size
          else index * (size / totalThreads) + size / totalThreads : Nat) : Int) ∧
      0 ≤ chunkStart (size / totalThreads) index ∧
      chunkStart (size / totalThreads) index ≤
        chunkEnd totalThreads size (size / totalThreads) index ∧
      chunkEnd totalThreads size (size / totalThreads) index ≤ (size : Int) ∧
      ∀ (d : List Buf) (src : List Int), size ≤ d.length → size ≤ src.length →
        ∃ out, worker (chunkStart (size / totalThreads) index)
          (chunkEnd totalThreads size (size / totalThreads) index) d src = .ok out := by
  have hr := chunk_range_eq totalThreads size index hT hT2 hN hi
  have h1 : index * (size / totalThreads) ≤ size := mul_div_le_of_le _ _ _ (by omega)
  have hsucc : (index + 1) * (size / totalThreads) =
      index * (size / totalThreads) + size / totalThreads := by ring
  have he : chunkEnd totalThreads size (size / totalThreads) index =
      ((if index = totalThreads - 1 then size
        else index * (size / totalThreads) + size / totalThreads : Nat) : Int) := by
    rw [hr.2, hsucc]
  have h2 : index ≠ totalThreads - 1 →
      index * (size / totalThreads) + size / totalThreads ≤ size := by
    intro hl
    rw [← hsucc]
    exact mul_div_le_of_le _ _ _ (by omega)
  refine ⟨hr.1, he, ?_, ?_, ?_, ?_⟩
  · rw [hr.1]
    exact Int.ofNat_nonneg _
  · rw [hr.1, he]
    by_cases hl : index = totalThreads - 1
    · rw [if_pos hl]
      exact_mod_cast h1
    · rw [if_neg hl]
      exact_mod_cast Nat.le_add_right _ _
  · rw [he]
    by_cases hl : index = totalThreads - 1
    · rw [if_pos hl]
    · rw [if_neg hl]
      exact_mod_cast h2 hl
  · intro d src hd hs
    exact ⟨_, worker_chunk_eq totalThreads size index d src hT hT2 hN hi hd hs⟩

/-- Witness of `chunk_bounds_no_wrap`: the last of three threads on the largest count. -/
theorem chunk_bounds_no_wrap_witness :
    chunkStart (2147483647 / 3) 2 = ((2 * (2147483647 / 3) : Nat) : Int) ∧
      chunkEnd 3 2147483647 (2147483647 / 3) 2 =
        ((if 2 = 3 - 1 then 2147483647
          else 2 * (2147483647 / 3) + 2147483647 / 3 : Nat) : Int) :=
  ⟨(chunk_bounds_no_wrap 3 2147483647 2 (by decide) (by decide) (by decide) (by decide)).1,
    (chunk_bounds_no_wrap 3 2147483647 2 (by decide) (by decide) (by decide) (by decide)).2.1⟩

/-- C11: for every `T ≥ 1` and `N ≤ 2^31 - 1`, on arrays of length at least `N`,
running the `T` worker calls one after another in any order (any permutation
of the thread indices) gives the same output buffers as the launch order, and
two different threads never share an index of their chunks. -/
theorem schedule_independent (totalThreads size : Nat) (dst : List Buf) (src : List Int)
    (hT : 1 ≤ totalThreads) (hT2 : totalThreads < 4294967296) (hN : size ≤ 2147483647)
    (hd : size ≤ dst.length) (hs : size ≤ src.length) :
    (∃ out, seven_seg_solution totalThreads dst src size = .ok out ∧
      ∀ order : List Nat, order.Perm (List.range totalThreads) →
        runThreads totalThreads size (size / totalThreads) src order dst = .ok out) ∧
    (∀ i1 i2 : Nat, i1 < totalThreads → i2 < totalThreads → ∀ j : Int,
      (chunkStart (size / totalThreads) i1 ≤ j ∧
        j < chunkEnd totalThreads size (size / totalThreads) i1) →
      (chunkStart (size / totalThreads) i2 ≤ j ∧
        j < chunkEnd totalThreads size (size / totalThreads) i2) → i1 = i2) := by
  constructor
  · refine ⟨_, seven_seg_solution_eq totalThreads size dst src hT hT2 hN hd hs, ?_⟩
    intro order hp
    rw [runThreads_perm totalThreads size src hT hT2 hN hs order _ hp
      (fun i hi => List.mem_range.1 (hp.mem_iff.1 hi)) dst hd,
      runThreads_range totalThreads size dst src hT hT2 hN hd hs totalThreads (Nat.le_refl _),
      if_pos rfl]
  · intro i1 i2 h1 h2 j hj1 hj2
    have hpart := chunks_partition totalThreads size hT hT2 hN
    have hin := hpart.2.1 i1 h1 j hj1.1 hj1.2
    have hcast : ((j.toNat : Nat) : Int) = j := Int.toNat_of_nonneg hin.1
    have hlt : j.toNat < size := by
      have a := hin.1
      have b := hin.2
      clear hj1 hj2 hpart hin hcast
      omega
    have c1 : i1 < totalThreads ∧
        chunkStart (size / totalThreads) i1 ≤ ((j.toNat : Nat) : Int) ∧
        ((j.toNat : Nat) : Int) < chunkEnd totalThreads size (size / totalThreads) i1 := by
      rw [hcast]
      exact ⟨h1, hj1⟩
    have c2 : i2 < totalThreads ∧
        chunkStart (size / totalThreads) i2 ≤ ((j.toNat : Nat) : Int) ∧
        ((j.toNat : Nat) : Int) < chunkEnd totalThreads size (size / totalThreads) i2 := by
      rw [hcast]
      exact ⟨h2, hj2⟩
    exact (hpart.1 j.toNat hlt).unique c1 c2

/-- Witness of `schedule_independent`: three threads on four inputs. -/
theorem schedule_independent_witness :
    ∃ out, seven_seg_solution 3 (List.replicate 4 (List.replicate 11 255)) [7, -42, 0, 105] 4 =
        .ok out ∧
      ∀ order : List Nat, order.Perm (List.range 3) →
        runThreads 3 4 (4 / 3) [7, -42, 0, 105] order
          (List.replicate 4 (List.replicate 11 255)) = .ok out :=
  (schedule_independent 3 4 (List.replicate 4 (List.replicate 11 255)) [7, -42, 0, 105]
    (by decide) (by decide) (by decide) (by decide) (by decide)).1

/-! ## The accesses of the digit loop -/

theorem digitLoopTrace_pos (position : Nat) (segNumber : Int) (h : segNumber > 0) :
    digitLoopTrace position segNumber =
      (position, (segNumber % 10).toNat) ::
        digitLoopTrace ((position + 4294967295) % 4294967296) (segNumber / 10) := by
  have h1 : Int.tdiv segNumber 10 = segNumber / 10 := Int.tdiv_eq_ediv (by omega) (by omega)
  have h2 : Int.tmod segNumber 10 = segNumber % 10 := Int.tmod_eq_emod (by omega) (by omega)
  have h3 : toUInt32 (segNumber % 10) = (segNumber % 10).toNat := by
    unfold toUInt32
    congr 1
    omega
  rw [digitLoopTrace, dif_pos h, h1, h2, h3]

theorem digitLoopTrace_nonpos (position : Nat) (segNumber : Int) (h : segNumber ≤ 0) :
    digitLoopTrace position segNumber = [] := by
  rw [digitLoopTrace, dif_neg (by omega)]

/-- The digit loop performs exactly the writes of its trace, in order. -/
theorem digitLoop_eq_foldl_trace (p : Nat) (n : Int) (a : Buf) :
    digitLoop p n a =
      (digitLoopTrace p n).foldl (fun s w => s.set w.1 (segMap.getD w.2 0)) a := by
  induction p, n, a using digitLoop_induct with
  | base p n a h => rw [digitLoop_nonpos p n a h, digitLoopTrace_nonpos p n h, List.foldl_nil]
  | step p n a h ih => rw [digitLoop_pos p n a h, digitLoopTrace_pos p n h, List.foldl_cons, ih]

/-- The trace of the loop run on a natural number: the table indices are its
decimal digits, least-significant first, and the positions count down from the
entry position. -/
theorem digitLoopTrace_digits :
    ∀ (m p : Nat), (Nat.digits 10 m).length ≤ p → p < 4294967296 →
      (digitLoopTrace p (m : Int)).map Prod.snd = Nat.digits 10 m ∧
      (digitLoopTrace p (m : Int)).map Prod.fst =
        (List.range (Nat.digits 10 m).length).map (fun k => p - k) := by
  intro m
  induction m using Nat.strong_induction_on with
  | _ m ih =>
    intro p hlen hp
    by_cases hm : m = 0
    · subst hm
      rw [digitLoopTrace_nonpos _ _ (by simp)]
      simp
    · have hpos : 0 < m := Nat.pos_of_ne_zero hm
      have hdig := Nat.digits_def' (by decide : 1 < 10) hpos
      rw [hdig] at hlen ⊢
      simp only [List.length_cons] at hlen ⊢
      have hdiv : ((m : Int) / 10) = ((m / 10 : Nat) : Int) := by simp
      have hmod : ((m : Int) % 10).toNat = m % 10 := by omega
      have hpred : (p + 4294967295) % 4294967296 = p - 1 := by omega
      obtain ⟨i1, i2⟩ := ih (m / 10) (by omega) (p - 1) (by omega) (by omega)
      rw [digitLoopTrace_pos _ _ (by omega), hdiv, hmod, hpred, List.map_cons, List.map_cons,
        i1, i2, List.range_succ_eq_map, List.map_cons, List.map_map]
      have hmap : List.map (fun k => p - 1 - k) (List.range (Nat.digits 10 (m / 10)).length) =
          List.map ((fun k => p - k) ∘ Nat.succ) (List.range (Nat.digits 10 (m / 10)).length) := by
        apply List.map_congr_left
        intro k _
        show p - 1 - k = p - (k + 1)
        omega
      rw [hmap, Nat.sub_zero]
      exact ⟨rfl, rfl⟩

theorem digitLoopTrace_toNat (p : Nat) (n : Int) :
    digitLoopTrace p n = digitLoopTrace p ((n.toNat : Nat) : Int) := by
  by_cases h : n ≤ 0
  · rw [digitLoopTrace_nonpos p n h, digitLoopTrace_nonpos _ _ (by omega)]
  · rw [Int.toNat_of_nonneg (by omega)]

theorem magnitude_toNat_le (x : Int) : (magnitude x).toNat ≤ 2147483647 := by
  have := magnitude_le x
  omega

/-- The trace of the encoder's loop on any input. -/
theorem encode_trace (x : Int) :
    (digitLoopTrace 10 (magnitude x)).map Prod.snd = Nat.digits 10 (magnitude x).toNat ∧
      (digitLoopTrace 10 (magnitude x)).map Prod.fst =
        (List.range (Nat.digits 10 (magnitude x).toNat).length).map (fun k => 10 - k) ∧
      (digitLoopTrace 10 (magnitude x)).length = (Nat.digits 10 (magnitude x).toNat).length ∧
      (Nat.digits 10 (magnitude x).toNat).length ≤ 10 := by
  have hlen := digits_length_le_ten _ (magnitude_toNat_le x)
  have h := digitLoopTrace_digits (magnitude x).toNat 10 hlen (by omega)
  rw [← digitLoopTrace_toNat] at h
  refine ⟨h.1, h.2, ?_, hlen⟩
  rw [← h.1, List.length_map]

/-- C13: the encoder is total and in-bounds: on every input (in particular
every `int32_t`) the digit loop performs exactly the iterations of its trace,
which are at most 10; every index it writes lies in `1..10` and every table
index it reads lies in `0..9`; for `x = 2147483647` the slots written are
exactly `10, 9, ..., 1`. -/
theorem encoder_in_bounds (x : Int) :
    (∀ a : Buf, digitLoop 10 (magnitude x) a =
      (digitLoopTrace 10 (magnitude x)).foldl (fun s w => s.set w.1 (segMap.getD w.2 0)) a) ∧
    (digitLoopTrace 10 (magnitude x)).length ≤ 10 ∧
    (∀ w ∈ digitLoopTrace 10 (magnitude x), 1 ≤ w.1 ∧ w.1 ≤ 10 ∧ w.2 ≤ 9) ∧
    (digitLoopTrace 10 (magnitude 2147483647)).map Prod.fst = [10, 9, 8, 7, 6, 5, 4, 3, 2, 1] := by
  obtain ⟨hsnd, hfst, hlen, hd⟩ := encode_trace x
  refine ⟨fun a => digitLoop_eq_foldl_trace 10 _ a, by rw [hlen]; exact hd, ?_, ?_⟩
  · intro w hw
    have h1 : w.1 ∈ (digitLoopTrace 10 (magnitude x)).map Prod.fst := List.mem_map_of_mem _ hw
    have h2 : w.2 ∈ (digitLoopTrace 10 (magnitude x)).map Prod.snd := List.mem_map_of_mem _ hw
    rw [hfst] at h1
    rw [hsnd] at h2
    obtain ⟨k, hk, hkw⟩ := List.mem_map.1 h1
    have hk2 := List.mem_range.1 hk
    have h3 := Nat.digits_lt_base (by decide : 1 < 10) h2
    omega
  · have hm : magnitude 2147483647 = 2147483647 := by decide
    have hdig : Nat.digits 10 2147483647 = [7, 4, 6, 3, 8, 4, 7, 4, 1, 2] := by norm_num
    have h := (encode_trace 2147483647).2.1
    rw [hm] at h
    rw [hm, h, show (2147483647 : Int).toNat = 2147483647 from rfl, hdig]
    decide

/-! ## The layout on the whole input range -/

theorem digitLoop_toNat (p : Nat) (n : Int) (a : Buf) :
    digitLoop p n a = digitLoop p ((n.toNat : Nat) : Int) a := by
  by_cases h : n ≤ 0
  · rw [digitLoop_nonpos p n a h, digitLoop_nonpos _ _ _ (by omega)]
  · rw [Int.toNat_of_nonneg (by omega)]

/-- The encoder on an all-zero 11-byte buffer, for every input: the sign
byte, then zero slots, then the codes of the decimal digits of the magnitude
that the loop sees (none when that magnitude is not positive). -/
theorem encode_layout_magnitude (x : Int) :
    seven_segConversion_solution (List.replicate 11 0) x =
      toByte (Int.land (signMask x) 1) ::
        (List.replicate (10 - (Nat.digits 10 (magnitude x).toNat).length) 0 ++
          (Nat.digits 10 (magnitude x).toNat).reverse.map (fun d => segMap.getD d 0)) := by
  have hz : fillZero (List.replicate 11 0) = List.replicate 11 0 := by decide
  have hlen := digits_length_le_ten _ (magnitude_toNat_le x)
  unfold seven_segConversion_solution
  simp only []
  rw [hz, digitLoop_toNat, digitLoop_digits _ 10 _ hlen (by simp) (by omega)]
  generalize toByte (Int.land (signMask x) 1) = s
  generalize hd : (Nat.digits 10 (magnitude x).toNat).length = d at hlen
  have ht : List.take (10 + 1 - d) ((List.replicate 11 0).set 0 s) =
      s :: List.replicate (10 - d) 0 := by
    have : 10 + 1 - d = (10 - d) + 1 := by omega
    rw [this]
    show List.take (10 - d + 1) (s :: List.replicate 10 0) = _
    rw [List.take_succ_cons, List.take_replicate, Nat.min_eq_left (by omega)]
  rw [ht]
  simp

/-- Slot `j + 1` of an encoded buffer, for `j < 10`. -/
theorem encode_slot (x : Int) (b : Buf) (hb : 11 ≤ b.length) (j : Nat) (hj : j < 10) :
    (seven_segConversion_solution b x)[j + 1]? =
      (List.replicate (10 - (Nat.digits 10 (magnitude x).toNat).length) 0 ++
        (Nat.digits 10 (magnitude x).toNat).reverse.map (fun d => segMap.getD d 0))[j]? := by
  have hlen := digits_length_le_ten _ (magnitude_toNat_le x)
  rw [encode_eq b x hb, encode_layout_magnitude, List.cons_append, List.getElem?_cons_succ,
    List.getElem?_append_left (by simp; omega)]

theorem encode_slot_pad (x : Int) (b : Buf) (hb : 11 ≤ b.length) (j : Nat)
    (hj : j < 10 - (Nat.digits 10 (magnitude x).toNat).length) :
    (seven_segConversion_solution b x)[j + 1]? = some 0 := by
  rw [encode_slot x b hb j (by omega), List.getElem?_append_left (by simp; omega),
    List.getElem?_replicate, if_pos hj]

theorem encode_slot_digit (x : Int) (b : Buf) (hb : 11 ≤ b.length) (k : Nat)
    (hk : k < (Nat.digits 10 (magnitude x).toNat).length) :
    (seven_segConversion_solution b x)[10 - (Nat.digits 10 (magnitude x).toNat).length + k + 1]? =
      some (segMap.getD ((Nat.digits 10 (magnitude x).toNat).reverse.getD k 0) 0) := by
  have hlen := digits_length_le_ten _ (magnitude_toNat_le x)
  have hk2 : k < (Nat.digits 10 (magnitude x).toNat).reverse.length := by
    rw [List.length_reverse]; exact hk
  have e : (Nat.digits 10 (magnitude x).toNat).reverse.getD k 0 =
      (Nat.digits 10 (magnitude x).toNat).reverse[k] := by
    rw [List.getD_eq_getElem?_getD, List.getElem?_eq_getElem hk2]
    rfl
  rw [encode_slot x b hb _ (by omega), List.getElem?_append_right (by simp),
    List.length_replicate, Nat.add_sub_cancel_left, List.getElem?_map, e,
    List.getElem?_eq_getElem hk2]
  rfl

theorem magnitude_toNat_eq_natAbs (x : Int) (h : x.natAbs ≤ 2147483647) :
    (magnitude x).toNat = x.natAbs := by
  have hx : IsInt32 x := by
    constructor <;> omega
  rw [magnitude_eq_natAbs x hx (by omega), Int.toNat_ofNat]

theorem encode_seven :
    seven_segConversion_solution (List.replicate 11 0) 7 =
      [0, 0, 0, 0, 0, 0, 0, 0, 0, 0, 0x70] := by
  have hdig : Nat.digits 10 7 = [7] := by norm_num
  rw [encode_layout 7 (by decide) (by decide), show (7 : Int).natAbs = 7 from rfl, hdig]
  decide

theorem encode_minus_forty_two :
    seven_segConversion_solution (List.replicate 11 0) (-42) =
      [1, 0, 0, 0, 0, 0, 0, 0, 0, 0x33, 0x6D] := by
  have hdig : Nat.digits 10 42 = [2, 4] := by norm_num
  rw [encode_layout (-42) (by decide) (by decide), show (-42 : Int).natAbs = 42 from rfl, hdig]
  decide

theorem encode_one_hundred_five :
    seven_segConversion_solution (List.replicate 11 0) 105 =
      [0, 0, 0, 0, 0, 0, 0, 0, 0x30, 0x7E, 0x5B] := by
  have hdig : Nat.digits 10 105 = [5, 0, 1] := by norm_num
  rw [encode_layout 105 (by decide) (by decide), show (105 : Int).natAbs = 105 from rfl, hdig]
  decide

/-! ## Claims about the layout and the table -/

/-- C12: right-aligned layout. For every `int32_t` value `x` with
`1 ≤ |x| ≤ 2147483647`, whose magnitude has the decimal digits
`d_1 ... d_d` (most-significant first, `1 ≤ d ≤ 10`), the encoder writes
`segMap[d_k]` into slot `10 - d + k` for `k = 1..d` and leaves slots
`1..10 - d` equal to 0, where `segMap` is the table of the source; `7` gives
`[0,...,0,0x70]` and `-42` gives `[1,0,...,0,0x33,0x6D]`. -/
theorem encode_right_aligned (x : Int) (b : Buf)
    (h1 : 1 ≤ x.natAbs) (h2 : x.natAbs ≤ 2147483647) (hb : 11 ≤ b.length) :
    (1 ≤ (Nat.digits 10 x.natAbs).length ∧ (Nat.digits 10 x.natAbs).length ≤ 10) ∧
    (∀ k, 1 ≤ k → k ≤ (Nat.digits 10 x.natAbs).length →
      (seven_segConversion_solution b x)[10 - (Nat.digits 10 x.natAbs).length + k]? =
        some (segMap.getD ((Nat.digits 10 x.natAbs).reverse.getD (k - 1) 0) 0)) ∧
    (∀ j, 1 ≤ j → j ≤ 10 - (Nat.digits 10 x.natAbs).length →
      (seven_segConversion_solution b x)[j]? = some 0) ∧
    segMap = [0x7E, 0x30, 0x6D, 0x79, 0x33, 0x5B, 0x5F, 0x70, 0x7F, 0x73] ∧
    seven_segConversion_solution (List.replicate 11 0) 7 =
      [0, 0, 0, 0, 0, 0, 0, 0, 0, 0, 0x70] ∧
    seven_segConversion_solution (List.replicate 11 0) (-42) =
      [1, 0, 0, 0, 0, 0, 0, 0, 0, 0x33, 0x6D] := by
  have hm := magnitude_toNat_eq_natAbs x h2
  have hlen := digits_length_le_ten x.natAbs h2
  have hne : Nat.digits 10 x.natAbs ≠ [] :=
    Nat.digits_ne_nil_iff_ne_zero.2 (by omega)
  have hpos : 1 ≤ (Nat.digits 10 x.natAbs).length := List.length_pos.2 hne
  refine ⟨⟨hpos, hlen⟩, ?_, ?_, rfl, encode_seven, encode_minus_forty_two⟩
  · intro k hk1 hk2
    have h := encode_slot_digit x b hb (k - 1) (by rw [hm]; omega)
    rw [hm] at h
    have e : 10 - (Nat.digits 10 x.natAbs).length + (k - 1) + 1 =
        10 - (Nat.digits 10 x.natAbs).length + k := by omega
    rw [e] at h
    exact h
  · intro j hj1 hj2
    have h := encode_slot_pad x b hb (j - 1) (by rw [hm]; omega)
    have e : j - 1 + 1 = j := by omega
    rw [e] at h
    exact h

/-- Witness of `encode_right_aligned` at `-42` and a dirty 12-byte buffer. -/
theorem encode_right_aligned_witness :
    (∀ k, 1 ≤ k → k ≤ (Nat.digits 10 (-42 : Int).natAbs).length →
      (seven_segConversion_solution (List.replicate 12 9) (-42))[10 -
          (Nat.digits 10 (-42 : Int).natAbs).length + k]? =
        some (segMap.getD ((Nat.digits 10 (-42 : Int).natAbs).reverse.getD (k - 1) 0) 0)) ∧
    (∀ j, 1 ≤ j → j ≤ 10 - (Nat.digits 10 (-42 : Int).natAbs).length →
      (seven_segConversion_solution (List.replicate 12 9) (-42))[j]? = some 0) :=
  ⟨(encode_right_aligned (-42) (List.replicate 12 9) (by decide) (by decide) (by decide)).2.1,
    (encode_right_aligned (-42) (List.replicate 12 9) (by decide) (by decide) (by decide)).2.2.1⟩

theorem getD_lt_ten (l : List Nat) (h : ∀ e ∈ l, e < 10) (k : Nat) : l.getD k 0 < 10 := by
  rw [List.getD_eq_getElem?_getD]
  by_cases hk : k < l.length
  · rw [List.getElem?_eq_getElem hk]
    exact h _ (List.getElem_mem hk)
  · rw [List.getElem?_eq_none (Nat.le_of_not_lt hk)]
    decide

theorem segMap_facts :
    segMap.length = 10 ∧ segMap.Nodup ∧ ∀ c ∈ segMap, c ≠ 0 ∧ c < 0x80 := by
  decide

/-- C18: the ten entries of `segMap` are pairwise distinct, non-zero and below
`0x80`, so the digit-to-code mapping is inverted by the position in the table;
and in a buffer encoded from any input, a digit slot `j` in `1..10` is 0 if and
only if it is one of the leading slots that the digit loop did not write
(`105` is stored as `0x30, 0x7E, 0x5B` in slots 8, 9, 10). -/
theorem segMap_codes (x : Int) (b : Buf) (hb : 11 ≤ b.length) (j : Nat)
    (hj1 : 1 ≤ j) (hj2 : j ≤ 10) :
    (segMap.length = 10 ∧ segMap.Nodup ∧ ∀ c ∈ segMap, c ≠ 0 ∧ c < 0x80) ∧
    (∀ d, d < 10 → List.indexOf (segMap.getD d 0) segMap = d) ∧
    ((seven_segConversion_solution b x)[j]? = some 0 ↔
      j ≤ 10 - (digitLoopTrace 10 (magnitude x)).length) ∧
    seven_segConversion_solution (List.replicate 11 0) 105 =
      [0, 0, 0, 0, 0, 0, 0, 0, 0x30, 0x7E, 0x5B] := by
  obtain ⟨_, _, htl, hlen⟩ := encode_trace x
  refine ⟨segMap_facts, fun d hd => (segMap_inverse d hd).2, ?_, encode_one_hundred_five⟩
  rw [htl]
  by_cases hj : j ≤ 10 - (Nat.digits 10 (magnitude x).toNat).length
  · have h := encode_slot_pad x b hb (j - 1) (by omega)
    have e : j - 1 + 1 = j := by omega
    rw [e] at h
    exact ⟨fun _ => hj, fun _ => h⟩
  · have h := encode_slot_digit x b hb
      (j - 1 - (10 - (Nat.digits 10 (magnitude x).toNat).length)) (by omega)
    have e : 10 - (Nat.digits 10 (magnitude x).toNat).length +
        (j - 1 - (10 - (Nat.digits 10 (magnitude x).toNat).length)) + 1 = j := by omega
    rw [e] at h
    have hdig : ∀ e ∈ (Nat.digits 10 (magnitude x).toNat).reverse, e < 10 := fun e he =>
      Nat.digits_lt_base (by decide) (List.mem_reverse.1 he)
    have hcode := (segMap_inverse _ (getD_lt_ten _ hdig
      (j - 1 - (10 - (Nat.digits 10 (magnitude x).toNat).length)))).1
    constructor
    · intro h0
      rw [h] at h0
      exact absurd (Option.some.inj h0) hcode
    · intro h0
      exact absurd h0 hj

/-- Witness of `segMap_codes`: slot 9 of the buffer of `105` holds the code of
an interior digit 0 and is not a leading slot. -/
theorem segMap_codes_witness :
    (seven_segConversion_solution (List.replicate 11 255) 105)[9]? = some 0 ↔
      9 ≤ 10 - (digitLoopTrace 10 (magnitude 105)).length :=
  (segMap_codes 105 (List.replicate 11 255) (by decide) 9 (by decide) (by decide)).2.2.1

theorem signByte_eq (x : Int) (hx : IsInt32 x) :
    toByte (Int.land (signMask x) 1) = if x < 0 then 1 else 0 := by
  by_cases h : x < 0
  · rw [signMask_of_neg x h hx.1, if_pos h, signByte_of_neg]
  · rw [signMask_of_nonneg x (by omega) hx.2, if_neg h, signByte_of_nonneg]

/-- The digits written for any input decode to the digits of the magnitude
that the loop sees. -/
theorem decode_encode_magnitude (x : Int) :
    decodeDigits (seven_segConversion_solution (List.replicate 11 0) x) =
      (Nat.digits 10 (magnitude x).toNat).reverse := by
  have hlen := digits_length_le_ten _ (magnitude_toNat_le x)
  have hdig : ∀ d ∈ (Nat.digits 10 (magnitude x).toNat).reverse, d < 10 := fun d hd =>
    Nat.digits_lt_base (by decide) (List.mem_reverse.1 hd)
  unfold decodeDigits
  rw [encode_layout_magnitude, List.drop_succ_cons, List.drop_zero,
    List.take_of_length_le (by simp; omega), dropWhile_zero_codes _ _ hdig,
    map_indexOf_codes _ hdig]

theorem magnitude_toNat_cases (x : Int) (hx : IsInt32 x) :
    (magnitude x).toNat = if x = -2147483648 then 0 else x.natAbs := by
  by_cases h : x = -2147483648
  · rw [if_pos h, h]
    decide
  · rw [if_neg h, magnitude_eq_natAbs x hx h, Int.toNat_ofNat]

/-- C16: the encoder is injective on the `int32_t` range (with wrap-around
arithmetic): if the first 11 bytes written for `x` and for `y` are equal then
`x = y`; in particular the buffers of `0` and of `-2147483648` differ. -/
theorem encode_injective (x y : Int) (b1 b2 : Buf) (hx : IsInt32 x) (hy : IsInt32 y)
    (h1 : 11 ≤ b1.length) (h2 : 11 ≤ b2.length)
    (h : (seven_segConversion_solution b1 x).take 11 =
      (seven_segConversion_solution b2 y).take 11) :
    x = y ∧
      seven_segConversion_solution (List.replicate 11 0) 0 ≠
        seven_segConversion_solution (List.replicate 11 0) (-2147483648) := by
  constructor
  · rw [encode_take b1 x h1, encode_take b2 y h2] at h
    have hsign : toByte (Int.land (signMask x) 1) = toByte (Int.land (signMask y) 1) := by
      have h0 := congrArg (fun l : Buf => l[0]?) h
      simp only [] at h0
      rw [encode_getElem?_zero _ x (by simp), encode_getElem?_zero _ y (by simp)] at h0
      exact Option.some.inj h0
    rw [signByte_eq x hx, signByte_eq y hy] at hsign
    have hdec := congrArg decodeDigits h
    rw [decode_encode_magnitude, decode_encode_magnitude] at hdec
    have hmag : (magnitude x).toNat = (magnitude y).toNat :=
      (Nat.digits_inj_iff (b := 10)).1 (List.reverse_injective hdec)
    rw [magnitude_toNat_cases x hx, magnitude_toNat_cases y hy] at hmag
    have hx1 := hx.1
    have hx2 := hx.2
    have hy1 := hy.1
    have hy2 := hy.2
    clear h hdec
    by_cases hxn : x < 0 <;> by_cases hyn : y < 0 <;>
      simp only [hxn, hyn, if_true, if_false] at hsign <;>
      first
        | omega
        | (split at hmag <;> split at hmag <;> omega)
  · intro h0
    have h3 := congrArg (fun l : Buf => l[0]?) h0
    simp only [] at h3
    rw [encode_getElem?_zero _ 0 (by simp), encode_getElem?_zero _ (-2147483648) (by simp),
      signMask_of_nonneg 0 (by decide) (by decide),
      signMask_of_neg (-2147483648) (by decide) (by decide),
      signByte_of_nonneg, signByte_of_neg] at h3
    exact absurd h3 (by decide)

/-- Witness of `encode_injective`: the same input in two different dirty buffers. -/
theorem encode_injective_witness :
    (-42 : Int) = -42 ∧
      seven_segConversion_solution (List.replicate 11 0) 0 ≠
        seven_segConversion_solution (List.replicate 11 0) (-2147483648) :=
  encode_injective (-42) (-42) (List.replicate 11 255) (List.replicate 13 7)
    (by decide) (by decide) (by decide) (by decide)
    (by rw [encode_take _ _ (by decide), encode_take _ _ (by decide)])

/-! ## Chunk sizes -/

/-- Chunk sizes within the `int` range of the count: for every `T ≥ 1` and
`N ≤ 2^31 - 1`, with `C = N / T`, thread `i < T - 1` is given `[i*C, (i+1)*C)`,
of exactly `C` elements, and the last thread `[(T-1)*C, N)`, of
`N - (T-1)*C` elements, a number between `C` and `C + T - 1`; when `N < T`
every thread but the last gets an empty range. -/
theorem chunk_sizes (totalThreads size : Nat)
    (hT : 1 ≤ totalThreads) (hT2 : totalThreads < 4294967296) (hN : size ≤ 2147483647) :
    (∀ i, i < totalThreads - 1 →
      chunkStart (size / totalThreads) i = ((i * (size / totalThreads) : Nat) : Int) ∧
      chunkEnd totalThreads size (size / totalThreads) i =
        (((i + 1) * (size / totalThreads) : Nat) : Int) ∧
      chunkEnd totalThreads size (size / totalThreads) i -
        chunkStart (size / totalThreads) i = ((size / totalThreads : Nat) : Int)) ∧
    (chunkStart (size / totalThreads) (totalThreads - 1) =
        (((totalThreads - 1) * (size / totalThreads) : Nat) : Int) ∧
      chunkEnd totalThreads size (size / totalThreads) (totalThreads - 1) = (size : Int) ∧
      size / totalThreads ≤ size - (totalThreads - 1) * (size / totalThreads) ∧
      size - (totalThreads - 1) * (size / totalThreads) ≤
        size / totalThreads + totalThreads - 1) ∧
    (size < totalThreads → ∀ i, i < totalThreads - 1 →
      chunkStart (size / totalThreads) i =
        chunkEnd totalThreads size (size / totalThreads) i) := by
  have hinner : ∀ i, i < totalThreads - 1 →
      chunkStart (size / totalThreads) i = ((i * (size / totalThreads) : Nat) : Int) ∧
      chunkEnd totalThreads size (size / totalThreads) i =
        (((i + 1) * (size / totalThreads) : Nat) : Int) := by
    intro i hi
    have hr := chunk_range_eq totalThreads size i hT hT2 hN (by omega)
    rw [if_neg (by omega)] at hr
    exact hr
  refine ⟨?_, ?_, ?_⟩
  · intro i hi
    obtain ⟨hs, he⟩ := hinner i hi
    refine ⟨hs, he, ?_⟩
    rw [hs, he]
    push_cast
    ring
  · have hr := chunk_range_eq totalThreads size (totalThreads - 1) hT hT2 hN (by omega)
    rw [if_pos rfl] at hr
    have hdm : totalThreads * (size / totalThreads) + size % totalThreads = size :=
      Nat.div_add_mod size totalThreads
    have hmod : size % totalThreads < totalThreads := Nat.mod_lt _ (by omega)
    have hsplit : totalThreads * (size / totalThreads) =
        (totalThreads - 1) * (size / totalThreads) + size / totalThreads := by
      have e : totalThreads = (totalThreads - 1) + 1 := by omega
      nth_rewrite 1 [e]
      rw [Nat.add_mul, Nat.one_mul]
    rw [hsplit] at hdm
    refine ⟨hr.1, hr.2, ?_, ?_⟩
    · generalize (totalThreads - 1) * (size / totalThreads) = P at hdm
      omega
    · generalize (totalThreads - 1) * (size / totalThreads) = P at hdm
      omega
  · intro hlt i hi
    obtain ⟨hs, he⟩ := hinner i hi
    rw [hs, he, Nat.div_eq_of_lt hlt, Nat.mul_zero, Nat.mul_zero]

/-- An instance of `chunk_sizes`: ten inputs on three threads give `[0,3)`, `[3,6)`, `[6,10)`. -/
theorem chunk_sizes_ten_three :
    (chunkStart (10 / 3) 0, chunkEnd 3 10 (10 / 3) 0) = (0, 3) ∧
      (chunkStart (10 / 3) 1, chunkEnd 3 10 (10 / 3) 1) = (3, 6) ∧
      (chunkStart (10 / 3) 2, chunkEnd 3 10 (10 / 3) 2) = (6, 10) := by
  decide

/-- C14 (evaluation at a failing input): with three threads and
`size = 2^32 - 1`, where `C = 1431655765`, thread 1 is given the `int` range
`[1431655765, -1431655766)`, not `[C, 2C)`: it holds no element instead of `C`;
and the last thread is given `[-1431655766, -1)`, not `[2C, N)`. -/
theorem chunk_sizes_large_count :
    4294967295 / 3 = 1431655765 ∧
      (chunkStart (4294967295 / 3) 1, chunkEnd 3 4294967295 (4294967295 / 3) 1) =
        (1431655765, -1431655766) ∧
      (chunkStart (4294967295 / 3) 2, chunkEnd 3 4294967295 (4294967295 / 3) 2) =
        (-1431655766, -1) ∧
      (worker (chunkStart (4294967295 / 3) 1) (chunkEnd 3 4294967295 (4294967295 / 3) 1)
        [] [] = .ok []) := by
  refine ⟨by decide, by decide, by decide, ?_⟩
  exact worker_of_le _ _ _ _ (by decide)
